import Mathlib

/-!
Verification of the keyword-extraction core of the `modelkeyword` repository:
the resilient response parser (`base_extractor.py`), the exclusion tracker
(`base_extractor.py`), and the work-stealing multi-provider scheduler
(`multi_platform_extractor.py`).  Python functions are shallowly embedded as
executable Lean definitions; fallible Python operations return `Except PyErr`.
-/

namespace ModelKeyword

/-- Whitespace as recognised by Python `str.strip()` and `re` `\s` on `str`
(ASCII whitespace, the C1 separator controls, and the common Unicode spaces). -/
def pyIsSpace (c : Char) : Bool :=
  c == ' ' || c == '\t' || c == '\n' || c == '\r' || c == '\x0b' || c == '\x0c' ||
  c == '\x1c' || c == '\x1d' || c == '\x1e' || c == '\x1f' ||
  c == '\x85' || c == '\xa0' || c == ' ' ||
  (0x2000 ≤ c.toNat && c.toNat ≤ 0x200a) ||
  c == ' ' || c == ' ' || c == ' ' || c == ' ' || c == '　'

/-- Characters kept by the whitelist in `_clean_keyword`
(`re.sub(r'[^一-龥a-zA-Z0-9\.-]', '', keyword)`). -/
def allowedChar (c : Char) : Bool :=
  (0x4e00 ≤ c.toNat && c.toNat ≤ 0x9fa5) ||
  ('a' ≤ c && c ≤ 'z') || ('A' ≤ c && c ≤ 'Z') || ('0' ≤ c && c ≤ '9') ||
  c == '.' || c == '-'

/-- The separator characters stripped at both ends by `keyword.strip('-.')`. -/
def sepChar (c : Char) : Bool :=
  c == '-' || c == '.'

/-- Drop the longest run of characters satisfying `p` from the END of a list
(the tail half of Python `str.strip`). -/
def dropTrailing (p : Char → Bool) (l : List Char) : List Char :=
  (l.reverse.dropWhile p).reverse

/-- Python `str.strip()` on a character list. -/
def stripWSList (l : List Char) : List Char :=
  dropTrailing pyIsSpace (l.dropWhile pyIsSpace)

/-- Python `str.strip()` (default whitespace). -/
def pyStrip (s : String) : String :=
  ⟨stripWSList s.data⟩

/-- Python `keyword.strip('-.')` on a character list. -/
def stripSepList (l : List Char) : List Char :=
  dropTrailing sepChar (l.dropWhile sepChar)

/-- `re.sub(r'[()（）]', '', s)`: remove ASCII and fullwidth parentheses. -/
def removeBrackets (l : List Char) : List Char :=
  l.filter fun c => !(c == '(' || c == ')' || c == '（' || c == '）')

/-- Worker for `wsToDash`; the flag records whether we are inside a whitespace
run whose replacement dash has already been emitted. -/
def wsToDashGo : Bool → List Char → List Char
  | _, [] => []
  | inRun, c :: t =>
    if pyIsSpace c then
      if inRun then wsToDashGo true t else '-' :: wsToDashGo true t
    else c :: wsToDashGo false t

/-- `re.sub(r'\s+', '-', s)`: each maximal whitespace run becomes one dash. -/
def wsToDash (l : List Char) : List Char :=
  wsToDashGo false l

/-- The character whitelist pass of `_clean_keyword`. -/
def wlFilter (l : List Char) : List Char :=
  l.filter allowedChar

/-- `re.sub(c+, c, s)` for a single character `c`: collapse runs of `c`. -/
def collapseRuns (c : Char) : List Char → List Char
  | [] => []
  | [a] => [a]
  | a :: b :: t =>
    if a == c && b == c then collapseRuns c (b :: t)
    else a :: collapseRuns c (b :: t)

/-- The typographic-quote replacements done (twice) in
`_parse_keywords_response`: curly double and single quotes become ASCII. -/
def fixQuoteChar (c : Char) : Char :=
  if c == Char.ofNat 0x201c || c == Char.ofNat 0x201d then '"'
  else if c == Char.ofNat 0x2018 || c == Char.ofNat 0x2019 then Char.ofNat 39
  else c

/-- The four `str.replace` calls normalising typographic quotes. -/
def fixQuotes (s : String) : String :=
  ⟨s.data.map fixQuoteChar⟩

/-- Does `l` start with `sub`? -/
def startsWithSub : List Char → List Char → Bool
  | _, [] => true
  | [], _ :: _ => false
  | a :: t, b :: u => a == b && startsWithSub t u

/-- Tail-recursive scan for `findSub`. -/
def findSubGo (sub : List Char) : List Char → Nat → Option Nat
  | [], i => if sub.isEmpty then some i else none
  | l@(_ :: t), i => if startsWithSub l sub then some i else findSubGo sub t (i + 1)

/-- Index of the first occurrence of `sub` in `l` (Python `str.find` when it
returns a non-negative index; `none` models `-1`). -/
def findSub (l sub : List Char) : Option Nat :=
  findSubGo sub l 0

/-- Python `sub in s` substring test. -/
def containsSub (l sub : List Char) : Bool :=
  (findSub l sub).isSome

/-- Tail-recursive scan for `rfindSub`, keeping the last match seen. -/
def rfindSubGo (sub : List Char) : List Char → Nat → Option Nat → Option Nat
  | [], i, best => if sub.isEmpty then some i else best
  | l@(_ :: t), i, best =>
    rfindSubGo sub t (i + 1) (if startsWithSub l sub then some i else best)

/-- Index of the last occurrence of `sub` in `l` (Python `str.rfind`). -/
def rfindSub (l sub : List Char) : Option Nat :=
  rfindSubGo sub l 0 none

/-- Index of the first occurrence of a single character (Python `str.find`). -/
def findCh (l : List Char) (c : Char) : Option Nat :=
  findSub l [c]

/-- Index of the last occurrence of a single character (Python `str.rfind`). -/
def rfindCh (l : List Char) (c : Char) : Option Nat :=
  rfindSub l [c]

/-- Python slice `s[i:j]` on a character list (with `0 ≤ i ≤ j`). -/
def sliceList (l : List Char) (i j : Nat) : List Char :=
  (l.drop i).take (j - i)

/-- JSON values as produced by Python `json.loads`.  Numbers keep their raw
lexeme: no claim inspects numeric values.  Object entries keep textual order;
lookups take the LAST binding, matching `dict` overwrite semantics. -/
inductive Json where
  | null : Json
  | bool : Bool → Json
  | num : String → Json
  | str : String → Json
  | arr : List Json → Json
  | obj : List (String × Json) → Json
deriving Repr

/-- Python exceptions relevant to the embedded code.  `except
json.JSONDecodeError` catches only `jsonDecode`; `except Exception` catches
all of these. -/
inductive PyErr where
  | jsonDecode : PyErr
  | typeError : PyErr
  | attributeError : PyErr
  | keyError : PyErr
deriving Repr, DecidableEq

/-- JSON structural whitespace accepted by `json.loads`. -/
def jsonWS (c : Char) : Bool :=
  c == ' ' || c == '\t' || c == '\n' || c == '\r'

/-- Hexadecimal digit value for `\uXXXX` escapes. -/
def hexVal (c : Char) : Option Nat :=
  if '0' ≤ c && c ≤ '9' then some (c.toNat - 48)
  else if 'a' ≤ c && c ≤ 'f' then some (c.toNat - 87)
  else if 'A' ≤ c && c ≤ 'F' then some (c.toNat - 55)
  else none

/-- Parse the remainder of a JSON string literal (after the opening quote).
Returns the string contents and the rest of the input. -/
def parseJStr (fuel : Nat) (l : List Char) (acc : List Char) :
    Option (String × List Char) :=
  match fuel with
  | 0 => none
  | fuel + 1 =>
    match l with
    | [] => none
    | c :: t =>
      if c == '"' then some (⟨acc.reverse⟩, t)
      else if c == '\\' then
        match t with
        | [] => none
        | e :: t2 =>
          if e == '"' then parseJStr fuel t2 ('"' :: acc)
          else if e == '\\' then parseJStr fuel t2 ('\\' :: acc)
          else if e == '/' then parseJStr fuel t2 ('/' :: acc)
          else if e == 'b' then parseJStr fuel t2 ('\x08' :: acc)
          else if e == 'f' then parseJStr fuel t2 ('\x0c' :: acc)
          else if e == 'n' then parseJStr fuel t2 ('\n' :: acc)
          else if e == 'r' then parseJStr fuel t2 ('\r' :: acc)
          else if e == 't' then parseJStr fuel t2 ('\t' :: acc)
          else if e == 'u' then
            match t2 with
            | h1 :: h2 :: h3 :: h4 :: t3 =>
              match hexVal h1, hexVal h2, hexVal h3, hexVal h4 with
              | some a, some b, some cc, some d =>
                parseJStr fuel t3 (Char.ofNat (((a * 16 + b) * 16 + cc) * 16 + d) :: acc)
              | _, _, _, _ => none
            | _ => none
          else none
      else if c.toNat < 0x20 then none
      else parseJStr fuel t (c :: acc)

/-- Consume the digits of a JSON number after its first character; strictness
of the full grammar is approximated (claims never inspect numbers). -/
def takeNumChars (l : List Char) : List Char × List Char :=
  (l.takeWhile fun c =>
      ('0' ≤ c && c ≤ '9') || c == '.' || c == 'e' || c == 'E' || c == '+' || c == '-',
   l.dropWhile fun c =>
      ('0' ≤ c && c ≤ '9') || c == '.' || c == 'e' || c == 'E' || c == '+' || c == '-')

/-- A pending context of the JSON parsing machine: an array whose earlier
elements are `acc` (reversed), or an object whose earlier members are `acc`
(reversed) and whose current key is `key`. -/
inductive JFrame where
  | arrCont (acc : List Json) : JFrame
  | objCont (acc : List (String × Json)) (key : String) : JFrame

/-- Input of one machine step: either raw text from which a value must be
parsed, or a finished value together with the remaining text, to be given to
the innermost pending context. -/
def JIn : Type := List Char ⊕ (Json × List Char)

/-- The JSON parsing machine (tail-recursive so that large documents reduce
iteratively).  It implements exactly the JSON value grammar of `json.loads`:
strings, numbers, `true`/`false`/`null`, arrays and objects with string keys,
with structural whitespace between tokens. -/
def jparse (fuel : Nat) (m : JIn) (stk : List JFrame) : Option (Json × List Char) :=
  match fuel with
  | 0 => none
  | fuel + 1 =>
    match m with
    | .inl l =>
      match l.dropWhile jsonWS with
      | [] => none
      | c :: t =>
        if c == '"' then
          match parseJStr fuel t [] with
          | some (s, rest) => jparse fuel (.inr (.str s, rest)) stk
          | none => none
        else if c == '\x7b' then
          match t.dropWhile jsonWS with
          | '\x7d' :: r2 => jparse fuel (.inr (.obj [], r2)) stk
          | '"' :: r2 =>
            match parseJStr fuel r2 [] with
            | some (k, rest) =>
              match rest.dropWhile jsonWS with
              | ':' :: rest2 => jparse fuel (.inl rest2) (.objCont [] k :: stk)
              | _ => none
            | none => none
          | _ => none
        else if c == '[' then
          match t.dropWhile jsonWS with
          | ']' :: r2 => jparse fuel (.inr (.arr [], r2)) stk
          | _ => jparse fuel (.inl t) (.arrCont [] :: stk)
        else if c == 't' then
          if startsWithSub t ['r', 'u', 'e'] then
            jparse fuel (.inr (.bool true, t.drop 3)) stk
          else none
        else if c == 'f' then
          if startsWithSub t ['a', 'l', 's', 'e'] then
            jparse fuel (.inr (.bool false, t.drop 4)) stk
          else none
        else if c == 'n' then
          if startsWithSub t ['u', 'l', 'l'] then
            jparse fuel (.inr (.null, t.drop 3)) stk
          else none
        else if c == '-' || ('0' ≤ c && c ≤ '9') then
          jparse fuel (.inr (.num ⟨c :: (takeNumChars t).1⟩, (takeNumChars t).2)) stk
        else none
    | .inr (v, rest) =>
      match stk with
      | [] => some (v, rest)
      | .arrCont acc :: stk2 =>
        match rest.dropWhile jsonWS with
        | ',' :: r2 => jparse fuel (.inl r2) (.arrCont (v :: acc) :: stk2)
        | ']' :: r2 => jparse fuel (.inr (.arr (v :: acc).reverse, r2)) stk2
        | _ => none
      | .objCont acc k :: stk2 =>
        match rest.dropWhile jsonWS with
        | ',' :: r2 =>
          match r2.dropWhile jsonWS with
          | '"' :: r3 =>
            match parseJStr fuel r3 [] with
            | some (k2, rest4) =>
              match rest4.dropWhile jsonWS with
              | ':' :: rest5 => jparse fuel (.inl rest5) (.objCont ((k, v) :: acc) k2 :: stk2)
              | _ => none
            | none => none
          | _ => none
        | '\x7d' :: r2 => jparse fuel (.inr (.obj ((k, v) :: acc).reverse, r2)) stk2
        | _ => none

/-- Python `json.loads`: parse exactly one JSON document, allowing only
trailing whitespace; failure raises `json.JSONDecodeError`. -/
def jsonLoads (s : String) : Except PyErr Json :=
  match jparse (s.length * 3 + 16) (.inl s.data) [] with
  | some (v, rest) =>
    if (rest.dropWhile jsonWS).isEmpty then .ok v else .error .jsonDecode
  | none => .error .jsonDecode

/-- The literal `"keyword":` searched for by the first repair pattern. -/
def kwColon : List Char := "\"keyword\":".data

/-- The literal `"keyword"` required inside a salvageable object. -/
def kwQuoted : List Char := "\"keyword\"".data

/-- The literal `"keywords"` checked before truncation repair. -/
def kwsQuoted : List Char := "\"keywords\"".data

/-- First repair of `_fix_common_json_errors`:
`re.sub(r'(\},\s*\n\s*)("keyword":)', r'\1\x7b\2', s)` — insert a missing
opening brace before a `"keyword":` that directly follows `},`. -/
def fixCJE1 (fuel : Nat) (l : List Char) : List Char :=
  match fuel with
  | 0 => l
  | fuel + 1 =>
    match l with
    | [] => []
    | c :: t =>
      if c == '\x7d' then
        match t with
        | ',' :: t2 =>
          let ws := t2.takeWhile pyIsSpace
          let rest := t2.dropWhile pyIsSpace
          if ws.contains '\n' && startsWithSub rest kwColon then
            '\x7d' :: ',' :: (ws ++ '\x7b' :: kwColon) ++
              fixCJE1 fuel (rest.drop kwColon.length)
          else c :: fixCJE1 fuel t
        | _ => c :: fixCJE1 fuel t
      else c :: fixCJE1 fuel t

/-- Second repair of `_fix_common_json_errors`:
`re.sub(r',(\s*\}\s*\])', r'\1', s)` — drop a trailing comma before `}]`. -/
def fixCJE2 (fuel : Nat) (l : List Char) : List Char :=
  match fuel with
  | 0 => l
  | fuel + 1 =>
    match l with
    | [] => []
    | c :: t =>
      if c == ',' then
        let w1 := t.takeWhile pyIsSpace
        let r1 := t.dropWhile pyIsSpace
        match r1 with
        | '\x7d' :: r2 =>
          let w2 := r2.takeWhile pyIsSpace
          let r3 := r2.dropWhile pyIsSpace
          match r3 with
          | ']' :: r4 => (w1 ++ '\x7d' :: w2 ++ [']']) ++ fixCJE2 fuel r4
          | _ => c :: fixCJE2 fuel t
        | _ => c :: fixCJE2 fuel t
      else c :: fixCJE2 fuel t

/-- Third repair of `_fix_common_json_errors`:
`re.sub(r'(\})\s*\n\s*(\{)', r'\1,\n  \2', s)` — insert a missing comma
between adjacent objects separated by a newline. -/
def fixCJE3 (fuel : Nat) (l : List Char) : List Char :=
  match fuel with
  | 0 => l
  | fuel + 1 =>
    match l with
    | [] => []
    | c :: t =>
      if c == '\x7d' then
        let ws := t.takeWhile pyIsSpace
        let rest := t.dropWhile pyIsSpace
        if ws.contains '\n' then
          match rest with
          | '\x7b' :: r2 =>
            '\x7d' :: ',' :: '\n' :: ' ' :: ' ' :: '\x7b' :: fixCJE3 fuel r2
          | _ => c :: fixCJE3 fuel t
        else c :: fixCJE3 fuel t
      else c :: fixCJE3 fuel t

/-- `_fix_common_json_errors`: the three regex repairs in source order. -/
def fixCommonJsonErrors (s : String) : String :=
  let a := fixCJE1 (s.data.length + 1) s.data
  let b := fixCJE2 (a.length + 1) a
  ⟨fixCJE3 (b.length + 1) b⟩

/-- `re.findall(r'\{[^}]*"keyword"[^}]*\}', s)`: every match runs from a `\x7b`
to the first `\x7d` after it and must contain `"keyword"`; scanning is
leftmost and non-overlapping. -/
def findKwObjsGo (fuel : Nat) (l : List Char) : List (List Char) :=
  match fuel with
  | 0 => []
  | fuel + 1 =>
    match l with
    | [] => []
    | c :: t =>
      if c == '\x7b' then
        match findCh t '\x7d' with
        | some j =>
          let interior := t.take j
          if containsSub interior kwQuoted then
            ('\x7b' :: interior ++ ['\x7d']) :: findKwObjsGo fuel (t.drop (j + 1))
          else findKwObjsGo fuel t
        | none => []
      else findKwObjsGo fuel t

/-- `_fix_truncated_json`: when the text does not end with `\x7d`, cut at the
last `\x7d`, and if a `"keywords"` marker precedes it, rebuild the text as
everything up to the last complete keyword object followed by `\x7d]\x7d`. -/
def fixTruncatedJson (s : String) : String :=
  let l := s.data
  if l.getLast? == some '\x7d' then s
  else
    match rfindCh l '\x7d' with
    | none => s
    | some j =>
      let beforeLast := l.take j
      if containsSub beforeLast kwsQuoted then
        match (findKwObjsGo (beforeLast.length + 1) beforeLast).getLast? with
        | some lastKw =>
          match rfindSub beforeLast lastKw with
          | some i => ⟨beforeLast.take i ++ lastKw ++ ('\x7d' :: ']' :: ['\x7d'])⟩
          | none => ⟨beforeLast ++ ('\x7d' :: ']' :: ['\x7d'])⟩
        | none => ⟨beforeLast ++ ('\x7d' :: ']' :: ['\x7d'])⟩
      else s

/-- The literal ```` ```json ```` fence marker. -/
def bqJson : List Char := "```json".data

/-- The literal ```` ``` ```` fence marker. -/
def bq3 : List Char := "```".data

/-- The parsing stage of `_parse_keywords_response`: strip, normalise quotes,
try `json.loads` directly; on failure extract a fenced block or the
`\x7b...\x7d` slice, normalise quotes again, apply the two repair passes, and
parse again.  The result is the Python name `data`. -/
def parseAttempt (response : String) : Except PyErr Json :=
  let cleaned := pyStrip response
  let js0 := fixQuotes cleaned
  match jsonLoads js0 with
  | .ok d => .ok d
  | .error _ =>
    let l := js0.data
    let js1 : List Char :=
      if containsSub l bqJson then
        match findSub l bqJson with
        | some i =>
          let start := i + 7
          match findSub (l.drop start) bq3 with
          | some off => stripWSList (sliceList l start (start + off))
          | none => stripWSList (l.drop start)
        | none => l
      else
        match findCh l '\x7b' with
        | some sp =>
          match rfindCh l '\x7d' with
          | some ep => if sp < ep then sliceList l sp (ep + 1) else l
          | none => l
        | none => l
    let js2 : String := ⟨js1.map fixQuoteChar⟩
    let js3 := fixCommonJsonErrors js2
    let js4 := fixTruncatedJson js3
    jsonLoads js4

/-- Python `==` between an arbitrary value and a `str` literal. -/
def pyEqStr (j : Json) (f : String) : Bool :=
  match j with
  | .str s => s == f
  | _ => false

/-- Python `f in kw` for the container kinds the loop can meet; `in` over a
number/bool/None raises `TypeError`. -/
def pyContains (kw : Json) (f : String) : Except PyErr Bool :=
  match kw with
  | .obj m => .ok (m.any fun p => p.1 == f)
  | .str s => .ok (containsSub s.data f.data)
  | .arr xs => .ok (xs.any fun x => pyEqStr x f)
  | _ => .error .typeError

/-- `dict` lookup: the LAST binding for a key wins (later assignments
overwrite earlier ones when `json.loads` builds the dict). -/
def lookupLast (m : List (String × Json)) (f : String) : Option Json :=
  match m.reverse.find? (fun p => p.1 == f) with
  | some p => some p.2
  | none => none

/-- Python `kw[f]` with a string subscript: works only on a dict; on a `str`
or `list` it raises `TypeError`, on a missing key `KeyError`. -/
def pyIndex (kw : Json) (f : String) : Except PyErr Json :=
  match kw with
  | .obj m =>
    match lookupLast m f with
    | some v => .ok v
    | none => .error .keyError
  | _ => .error .typeError

/-- Python `v.strip()`: only `str` has `.strip`; otherwise `AttributeError`. -/
def pyStripJson : Json → Except PyErr String
  | .str s => .ok (pyStrip s)
  | _ => .error .attributeError

/-- `data.get('keywords', [])`: only a dict has `.get`; the default is the
empty list. -/
def pyGetKeywords (data : Json) : Except PyErr Json :=
  match data with
  | .obj m => .ok ((lookupLast m "keywords").getD (.arr []))
  | _ => .error .attributeError

/-- Python `len`: defined on list, str and dict; `TypeError` otherwise. -/
def pyLen : Json → Except PyErr Nat
  | .arr xs => .ok xs.length
  | .str s => .ok s.data.length
  | .obj m => .ok m.length
  | _ => .error .typeError

/-- Python `x[:8]`: slices lists and strings; a dict raises `TypeError`. -/
def pySlice8 : Json → Except PyErr Json
  | .arr xs => .ok (.arr (xs.take 8))
  | .str s => .ok (.str ⟨s.data.take 8⟩)
  | _ => .error .typeError

/-- Python `for kw in x`: lists yield elements, strings their characters,
dicts their keys in insertion order; other values raise `TypeError`. -/
def pyIterate : Json → Except PyErr (List Json)
  | .arr xs => .ok xs
  | .str s => .ok (s.data.map fun c => .str ⟨[c]⟩)
  | .obj m => .ok (m.map fun p => .str p.1)
  | _ => .error .typeError

/-- One extracted keyword record: the dict
`\x7b'keyword': ..., 'dimension': ..., 'reason': ...\x7d`. -/
structure Record where
  keyword : String
  dimension : String
  reason : String
deriving Repr, DecidableEq

/-- One conjunct of `_validate_keyword`:
`field in keyword_obj and keyword_obj[field].strip()` with Python truthiness. -/
def checkField (kw : Json) (f : String) : Except PyErr Bool := do
  let m ← pyContains kw f
  if m then
    let v ← pyIndex kw f
    let s ← pyStripJson v
    pure !s.isEmpty
  else pure false

/-- `_validate_keyword`: `all(...)` over the three required fields, with the
generator's left-to-right short-circuit evaluation. -/
def pyValidateKeyword (kw : Json) : Except PyErr Bool := do
  let b1 ← checkField kw "keyword"
  if b1 then do
    let b2 ← checkField kw "dimension"
    if b2 then checkField kw "reason" else pure false
  else pure false

/-- The character-level part of `_clean_keyword` after the initial strip:
bracket removal, whitespace→dash, whitelist, separator collapsing, edge
stripping.  The two version-number branches in the source are `pass` and are
represented by nothing. -/
def cleanKeywordCore (l : List Char) : List Char :=
  stripSepList (collapseRuns '.' (collapseRuns '-' (wlFilter (wsToDash (removeBrackets l)))))

/-- The brand-expansion table of `_enhance_brand_keywords`. -/
def brandTable : List (String × String) :=
  [("百度", "百度大模型"), ("腾讯", "腾讯大模型"), ("阿里", "阿里大模型"),
   ("阿里巴巴", "阿里巴巴大模型"), ("字节", "字节大模型"),
   ("字节跳动", "字节跳动大模型"), ("华为", "华为大模型"),
   ("小米", "小米大模型"), ("快手", "快手大模型"), ("网易", "网易大模型"),
   ("京东", "京东大模型"), ("美团", "美团大模型"), ("滴滴", "滴滴大模型"),
   ("OpenAI", "OpenAI大模型"), ("Google", "Google大模型"),
   ("谷歌", "谷歌大模型"), ("Microsoft", "Microsoft大模型"),
   ("微软", "微软大模型"), ("Meta", "Meta大模型"),
   ("Facebook", "Facebook大模型"), ("Amazon", "Amazon大模型"),
   ("亚马逊", "亚马逊大模型"), ("Apple", "Apple大模型"),
   ("苹果", "苹果大模型"), ("NVIDIA", "NVIDIA大模型"),
   ("英伟达", "英伟达大模型"), ("智谱", "智谱大模型"),
   ("月之暗面", "月之暗面大模型"), ("零一万物", "零一万物大模型"),
   ("深度求索", "深度求索大模型"), ("商汤", "商汤大模型"),
   ("旷视", "旷视大模型"), ("科大讯飞", "科大讯飞大模型"),
   ("云知声", "云知声大模型"), ("出门问问", "出门问问大模型"),
   ("小冰", "小冰大模型")]

/-- `_enhance_brand_keywords`: only for the dimension `品牌与身份` replace an
exact brand-name match by its expanded form. -/
def enhanceBrandKeywords (k : String) (dim : Json) : String :=
  if pyEqStr dim "品牌与身份" then
    match brandTable.find? (fun p => p.1 == k) with
    | some p => p.2
    | none => k
  else k

/-- `_clean_keyword` as a whole, with Python evaluation order: keyword lookup
and strip, the character pipeline, brand enhancement (raw dimension), then
the stripped dimension and reason of the returned dict. -/
def cleanKeyword (kw : Json) : Except PyErr Record := do
  let kv ← pyIndex kw "keyword"
  let ks ← pyStripJson kv
  let kclean : String := ⟨cleanKeywordCore ks.data⟩
  let dvRaw ← pyIndex kw "dimension"
  let kfinal := enhanceBrandKeywords kclean dvRaw
  let ds ← pyStripJson dvRaw
  let rv ← pyIndex kw "reason"
  let rs ← pyStripJson rv
  pure ⟨kfinal, ds, rs⟩

/-- The validation loop of `_parse_keywords_response`: validate each entry,
clean it, and keep it unless its cleaned keyword already occurred. -/
def loopValidate : List Json → List Record → Except PyErr (List Record)
  | [], acc => .ok acc
  | kw :: rest, acc => do
    let v ← pyValidateKeyword kw
    if v then do
      let r ← cleanKeyword kw
      if acc.any (fun a => a.keyword == r.keyword) then loopValidate rest acc
      else loopValidate rest (acc ++ [r])
    else loopValidate rest acc

/-- Post-parse validation of `_parse_keywords_response`: extract `keywords`,
reject fewer than 3 entries, truncate more than 8 to the first 8, then run
the validation loop. -/
def postProcess (data : Json) : Except PyErr (List Record) := do
  let kws ← pyGetKeywords data
  let n ← pyLen kws
  if n < 3 then pure []
  else do
    let kws2 ← if 8 < n then pySlice8 kws else pure kws
    let elems ← pyIterate kws2
    loopValidate elems []

/-- The whole `try:` body of `_parse_keywords_response`. -/
def parseBody (s : String) : Except PyErr (List Record) :=
  parseAttempt s >>= postProcess

/-- `_parse_keywords_response` as the caller sees it: the `except` clauses
turn every error into the empty list. -/
def parseKeywordsResponse (s : String) : List Record :=
  match parseBody s with
  | .ok l => l
  | .error _ => []

/-- `_parse_keywords_response` with its exception behaviour made explicit:
`except json.JSONDecodeError` and `except Exception` both return `[]`, so no
error ever escapes. -/
def parseKeywordsResponseE (s : String) : Except PyErr (List Record) :=
  match parseBody s with
  | .ok l => .ok l
  | .error .jsonDecode => .ok []
  | .error _ => .ok []

/-! ### Exclusion tracker (`BaseKeywordExtractor.update_exclusion_queue`) -/

/-- The mutable tracker state: `keyword_frequency` is a `dict` modelled as an
insertion-ordered association list, `excluded_keywords` the derived list. -/
structure Tracker where
  keywordFrequency : List (String × Nat)
  excludedKeywords : List String
deriving Repr

/-- `self.keyword_frequency[keyword] = .get(keyword, 0) + 1`: increment in
place, or append a new key at the end (dict insertion order). -/
def bumpFreq (freq : List (String × Nat)) (k : String) : List (String × Nat) :=
  if freq.any (fun p => p.1 == k) then
    freq.map fun p => if p.1 == k then (p.1, p.2 + 1) else p
  else freq ++ [(k, 1)]

/-- `self.keyword_frequency[k]` (0 when absent, used only for present keys). -/
def lookupCount (freq : List (String × Nat)) (k : String) : Nat :=
  ((freq.find? (fun p => p.1 == k)).map Prod.snd).getD 0

/-- Stable descending insertion: the new element goes after every element
whose count is at least as large, reproducing Python's stable
`list.sort(key=..., reverse=True)`. -/
def insDescBy (cnt : String → Nat) (a : String) : List String → List String
  | [] => [a]
  | b :: t => if cnt a ≤ cnt b then b :: insDescBy cnt a t else a :: b :: t

/-- Stable sort by count descending (ties keep the input order). -/
def sortDescBy (cnt : String → Nat) (l : List String) : List String :=
  l.foldl (fun acc a => insDescBy cnt a acc) []

/-- `update_exclusion_queue`: count every keyword occurrence, keep the keys
with count ≥ 10 in dict order, sort stably by count descending, truncate to
the first 50. -/
def updateExclusionQueue (t : Tracker) (keywords : List Record) : Tracker :=
  let freq := keywords.foldl (fun f r => bumpFreq f r.keyword) t.keywordFrequency
  let high := (freq.filter fun p => 10 ≤ p.2).map Prod.fst
  let sorted := sortDescBy (lookupCount freq) high
  ⟨freq, sorted.take 50⟩

/-- A fresh extractor: empty frequency map, empty exclusion list. -/
def initTracker : Tracker := ⟨[], []⟩

/-! ### The normalisation invariant of cleaned keywords -/

/-- No `--` and no `..` anywhere (the claim's "no duplicate separators"). -/
def noDoubleSep : List Char → Bool
  | [] => true
  | [_] => true
  | a :: b :: t =>
    !((a == '-' && b == '-') || (a == '.' && b == '.')) && noDoubleSep (b :: t)

/-- Neither end is a separator (the claim's "no leading or trailing
separators"). -/
def noEdgeSep (l : List Char) : Bool :=
  (match l.head? with
   | some c => !sepChar c
   | none => true) &&
  (match l.getLast? with
   | some c => !sepChar c
   | none => true)

/-- The normalisation filter of the claim: whitelist, no duplicate
separators, no edge separators (an empty keyword passes vacuously). -/
def isNormalizedKeyword (s : String) : Bool :=
  s.data.all allowedChar && noDoubleSep s.data && noEdgeSep s.data

/-! ### Work-stealing scheduler (`MultiPlatformExtractor._work_stealing_main`
and `._worker`) -/

/-- The shared scheduler state: the `asyncio.Queue` of `(item index,
retry_count)` tasks, the tasks currently held by a worker between
`get_nowait` and its acknowledgment, the shared `results` list (success
item indices), the dropped items, a per-item attempt counter, and the
shared `completed_count`. -/
structure SchedState where
  queue : List (Nat × Nat)
  inflight : List (Nat × Nat)
  succeeded : List Nat
  dropped : List Nat
  attempts : Nat → Nat
  completed : Nat

/-- The state right after `_work_stealing_main` has enqueued `(model_info,
0)` for each of the `N` items. -/
def initState (N : Nat) : SchedState :=
  ⟨(List.range N).map (fun i => (i, 0)), [], [], [], fun _ => 0, 0⟩

/-- Increment the attempt counter of item `i`. -/
def bumpAttempts (f : Nat → Nat) (i : Nat) : Nat → Nat :=
  fun j => if j = i then f j + 1 else f j

/-- One scheduler transition, for `P = platform_count` workers
(`max_retries` in `_worker` is `platform_count`):
* `dequeue` — a worker takes the queue head with `get_nowait` and starts an
  attempt (`extract_keywords_single_platform`);
* `succeed` — the attempt returned keywords: the result is appended under
  the lock and `completed_count` is incremented (one `task_done`);
* `failRetry` — the attempt failed and `retry_count < max_retries - 1`: the
  task is re-enqueued with `retry_count + 1` (one `task_done`);
* `failDrop` — the attempt failed and the retry budget is exhausted: the
  item is dropped and `completed_count` is incremented (one `task_done`). -/
inductive Step (P : Nat) : SchedState → SchedState → Prop
  | dequeue (s : SchedState) (i r : Nat) (rest : List (Nat × Nat))
      (hq : s.queue = (i, r) :: rest) :
      Step P s { s with queue := rest, inflight := s.inflight ++ [(i, r)],
                        attempts := bumpAttempts s.attempts i }
  | succeed (s : SchedState) (i r : Nat) (l1 l2 : List (Nat × Nat))
      (hf : s.inflight = l1 ++ (i, r) :: l2) :
      Step P s { s with inflight := l1 ++ l2, succeeded := s.succeeded ++ [i],
                        completed := s.completed + 1 }
  | failRetry (s : SchedState) (i r : Nat) (l1 l2 : List (Nat × Nat))
      (hf : s.inflight = l1 ++ (i, r) :: l2) (hr : r < P - 1) :
      Step P s { s with inflight := l1 ++ l2, queue := s.queue ++ [(i, r + 1)] }
  | failDrop (s : SchedState) (i r : Nat) (l1 l2 : List (Nat × Nat))
      (hf : s.inflight = l1 ++ (i, r) :: l2) (hr : ¬ r < P - 1) :
      Step P s { s with inflight := l1 ++ l2, dropped := s.dropped ++ [i],
                        completed := s.completed + 1 }

/-- All interleavings of the worker pool: the reflexive-transitive closure
of single transitions. -/
def Reaches (P : Nat) : SchedState → SchedState → Prop :=
  Relation.ReflTransGen (Step P)

/-- One provider entry of `self.platforms` as the scheduler sees it. -/
structure Platform where
  pid : String
  enabled : Bool
deriving Repr, DecidableEq

/-- The observable effect of `_work_stealing_main` up to the point where the
workers take over: either the zero-provider abort (error logged, empty
result list returned, nothing enqueued, no worker started) or the initial
scheduler state with one worker per enabled platform. -/
structure WSRun where
  errorLogged : Bool
  tasksEnqueued : Nat
  workersStarted : Nat
  scheduled : Option SchedState
  immediateResults : List Nat

/-- `_work_stealing_main` guard and setup (lines 315–351): compute the
enabled platforms; if there are none, log `❌ 没有可用的平台` and return `[]`
before creating the queue or any worker; otherwise enqueue all `N` items and
start one worker per enabled platform. -/
def workStealingMain (platforms : List Platform) (N : Nat) : WSRun :=
  let avail := platforms.filter (·.enabled)
  if avail.length = 0 then
    { errorLogged := true, tasksEnqueued := 0, workersStarted := 0,
      scheduled := none, immediateResults := [] }
  else
    { errorLogged := false, tasksEnqueued := N, workersStarted := avail.length,
      scheduled := some (initState N), immediateResults := [] }

/-! ### Concrete inputs used by witnesses and counterexamples -/

/-- A well-formed keyword entry as a JSON object. -/
def mkKwObj (k d r : String) : Json :=
  .obj [("keyword", .str k), ("dimension", .str d), ("reason", .str r)]

/-- The serialized form of a well-formed keyword entry. -/
def entryText (k : String) : String :=
  "\x7b\"keyword\": \"" ++ k ++ "\", \"dimension\": \"d\", \"reason\": \"r\"\x7d"

/-- A response with exactly two valid entries. -/
def twoEntryInput : String :=
  "\x7b\"keywords\": [" ++ entryText "A" ++ ", " ++ entryText "B" ++ "]\x7d"

/-- The parse of `twoEntryInput`. -/
def twoEntryData : Json :=
  .obj [("keywords", .arr [mkKwObj "A" "d" "r", mkKwObj "B" "d" "r"])]

/-- A response with ten valid, pairwise distinct entries. -/
def tenEntryInput : String :=
  "\x7b\"keywords\": [" ++ entryText "K0" ++ ", " ++ entryText "K1" ++ ", " ++
    entryText "K2" ++ ", " ++ entryText "K3" ++ ", " ++ entryText "K4" ++ ", " ++
    entryText "K5" ++ ", " ++ entryText "K6" ++ ", " ++ entryText "K7" ++ ", " ++
    entryText "K8" ++ ", " ++ entryText "K9" ++ "]\x7d"

/-- The raw entry list of `tenEntryInput` after parsing. -/
def tenEntryList : List Json :=
  [mkKwObj "K0" "d" "r", mkKwObj "K1" "d" "r", mkKwObj "K2" "d" "r",
   mkKwObj "K3" "d" "r", mkKwObj "K4" "d" "r", mkKwObj "K5" "d" "r",
   mkKwObj "K6" "d" "r", mkKwObj "K7" "d" "r", mkKwObj "K8" "d" "r",
   mkKwObj "K9" "d" "r"]

/-- The parse of `tenEntryInput`. -/
def tenEntryData : Json :=
  .obj [("keywords", .arr tenEntryList)]

/-- A response with three entries, the second of which has a blank reason. -/
def blankReasonInput : String :=
  "\x7b\"keywords\": [" ++ entryText "A" ++
    ", \x7b\"keyword\": \"B\", \"dimension\": \"d\", \"reason\": \" \"\x7d, " ++
    entryText "C" ++ "]\x7d"

/-- A response with three valid entries whose first keyword is `()`,
which the cleaning pipeline reduces to the empty string. -/
def emptyKeywordInput : String :=
  "\x7b\"keywords\": [" ++ entryText "()" ++ ", " ++ entryText "A" ++ ", " ++
    entryText "B" ++ "]\x7d"

/-- A fenced response truncated mid-object inside the `keywords` array,
containing the two earlier complete objects `A` and `B`. -/
def truncatedInput : String :=
  "```json\n\x7b\"keywords\": [" ++ entryText "A" ++ ", " ++ entryText "B" ++
    ", \x7b\"keyword\": \"C\", \"dim"

/-- What `_parse_keywords_response` passes to the repair passes for
`truncatedInput`: the fence interior, stripped. -/
def truncatedSliced : String :=
  "\x7b\"keywords\": [" ++ entryText "A" ++ ", " ++ entryText "B" ++
    ", \x7b\"keyword\": \"C\", \"dim"

/-- The output of `_fix_truncated_json` on `truncatedSliced`: note the two
adjacent closing braces before `]`, which no JSON parser accepts, and that
the complete object `B` has been discarded. -/
def truncatedRepaired : String :=
  "\x7b\"keywords\": [" ++ entryText "A" ++ "\x7d]\x7d"

/-- A single garbage response used to witness the malformed-input branch. -/
def garbageInput : String := "not json"

set_option maxRecDepth 2048

set_option maxHeartbeats 1000000

/-! ### Claim C2 — the parser is total and degrades to the empty list -/

/-- Claim C2: for every input string `_parse_keywords_response` returns
normally (no error escapes its `except` clauses) with a possibly empty list,
and whenever the `try` body fails the result is the empty list, not an
error. -/
theorem parse_keywords_response_total (s : String) :
    parseKeywordsResponseE s = .ok (parseKeywordsResponse s) ∧
    ((parseBody s).toOption = none → parseKeywordsResponse s = []) := by
  constructor
  · unfold parseKeywordsResponseE parseKeywordsResponse
    cases h : parseBody s with
    | ok l => rfl
    | error e => cases e <;> rfl
  · intro h
    unfold parseKeywordsResponse
    cases hb : parseBody s with
    | ok l => rw [hb] at h; simp [Except.toOption] at h
    | error e => rfl

/-- Witness for C2 at the concrete garbage input. -/
theorem parse_keywords_response_total_witness :
    parseKeywordsResponse garbageInput = [] :=
  (parse_keywords_response_total garbageInput).2 (by decide)

/-! ### Claim C4 — fewer than 3 parsed entries reject the whole result -/

/-- Claim C4: whenever the parsed `keywords` value is an array with fewer
than 3 entries, `_parse_keywords_response` returns the empty list. -/
theorem short_keywords_rejected (s : String) (data : Json) (l : List Json)
    (h1 : parseAttempt s = .ok data)
    (h2 : pyGetKeywords data = .ok (.arr l))
    (h3 : l.length < 3) :
    parseKeywordsResponse s = [] := by
  have hb : parseBody s = .ok [] := by
    unfold parseBody
    rw [h1]
    show postProcess data = .ok []
    unfold postProcess
    rw [h2]
    simp only [bind, Except.bind, pyLen]
    rw [if_pos h3]
    rfl
  unfold parseKeywordsResponse
  rw [hb]

/-- Witness for C4 at the two-entry response. -/
theorem short_keywords_rejected_witness :
    parseKeywordsResponse twoEntryInput = [] :=
  short_keywords_rejected twoEntryInput twoEntryData
    [mkKwObj "A" "d" "r", mkKwObj "B" "d" "r"] rfl rfl (by decide)

/-! ### Claim C9 — concrete normalisation behaviour of `_clean_keyword` -/

/-- Claim C9: `_clean_keyword` trims `  Deep Seek R1  ` and joins its words
with dashes, returns the version-like token `FLUX.1` unchanged, and strips
forbidden punctuation (parentheses, emoji) without touching the alphanumeric
content. -/
theorem clean_keyword_examples :
    cleanKeyword (mkKwObj "  Deep Seek R1  " "功能场景" "r") =
      .ok ⟨"Deep-Seek-R1", "功能场景", "r"⟩ ∧
    cleanKeyword (mkKwObj "FLUX.1" "技术特性" "r") =
      .ok ⟨"FLUX.1", "技术特性", "r"⟩ ∧
    cleanKeyword (mkKwObj "(GPT-4)🔥" "技术特性" "r") =
      .ok ⟨"GPT-4", "技术特性", "r"⟩ := by
  refine ⟨rfl, rfl, rfl⟩

/-! ### Claim C10 — the 3-entry minimum is checked before validation -/

/-- Claim C10: there is an input whose raw `keywords` array has 3 entries
(passing the minimum) but whose returned list has only 2 records, because
one entry is dropped later by field validation: the minimum is enforced on
the raw array, not on the validated output. -/
theorem short_output_below_minimum :
    parseAttempt blankReasonInput =
      .ok (.obj [("keywords", .arr [mkKwObj "A" "d" "r",
        .obj [("keyword", .str "B"), ("dimension", .str "d"), ("reason", .str " ")],
        mkKwObj "C" "d" "r"])]) ∧
    parseKeywordsResponse blankReasonInput = [⟨"A", "d", "r"⟩, ⟨"C", "d", "r"⟩] ∧
    (parseKeywordsResponse blankReasonInput).length = 2 := by
  refine ⟨rfl, by decide, by decide⟩

/-! ### Claim C3 (counterexample part) — a returned keyword can be empty -/

/-- Counterexample to C3 as stated: on `emptyKeywordInput` the parser
returns a record whose keyword is empty (hence empty after trimming): the
entry `()` passes `_validate_keyword` but `_clean_keyword` erases it. -/
theorem returned_keyword_can_be_empty :
    ∃ r ∈ parseKeywordsResponse emptyKeywordInput, pyStrip r.keyword = "" := by
  refine ⟨⟨"", "d", "r"⟩, by decide, by decide⟩

/-! ### Claim C5 — the truncation repair emits malformed JSON (code bug) -/

/-- Claim C5 evaluation: on a truncated response containing the two complete
objects `A` and `B`, the pipeline routes the fence interior unchanged through
`_fix_common_json_errors`, then `_fix_truncated_json` rebuilds a string with
a doubled closing brace (discarding the complete object `B` as well), the
rebuilt string is rejected by `json.loads`, and the parser returns `[]`
instead of the earlier complete objects. -/
theorem truncation_repair_produces_malformed_json :
    containsSub truncatedSliced.data (entryText "A").data = true ∧
    containsSub truncatedSliced.data (entryText "B").data = true ∧
    fixCommonJsonErrors truncatedSliced = truncatedSliced ∧
    fixTruncatedJson truncatedSliced = truncatedRepaired ∧
    jsonLoads truncatedRepaired = .error .jsonDecode ∧
    parseAttempt truncatedInput = .error .jsonDecode ∧
    parseKeywordsResponse truncatedInput = [] := by
  refine ⟨by decide, by decide, by decide, by decide, rfl, rfl, by decide⟩

/-! ### Claim C7 — zero enabled providers abort before scheduling -/

/-- Claim C7: with zero enabled providers `_work_stealing_main` logs the
fatal configuration error and returns the empty result list immediately: no
task is enqueued, no worker is started, and no scheduler state is created. -/
theorem zero_providers_abort (platforms : List Platform) (N : Nat)
    (h : ∀ p ∈ platforms, p.enabled = false) :
    (workStealingMain platforms N).errorLogged = true ∧
    (workStealingMain platforms N).tasksEnqueued = 0 ∧
    (workStealingMain platforms N).workersStarted = 0 ∧
    (workStealingMain platforms N).scheduled = none ∧
    (workStealingMain platforms N).immediateResults = [] := by
  have hf : platforms.filter (·.enabled) = [] := by
    rw [List.filter_eq_nil_iff]
    intro p hp
    simp [h p hp]
  unfold workStealingMain
  rw [hf]
  simp

/-- Witness for C7: one configured but disabled provider, three items. -/
theorem zero_providers_abort_witness :
    (workStealingMain [⟨"openai", false⟩] 3).errorLogged = true ∧
    (workStealingMain [⟨"openai", false⟩] 3).tasksEnqueued = 0 ∧
    (workStealingMain [⟨"openai", false⟩] 3).workersStarted = 0 ∧
    (workStealingMain [⟨"openai", false⟩] 3).scheduled = none ∧
    (workStealingMain [⟨"openai", false⟩] 3).immediateResults = [] :=
  zero_providers_abort [⟨"openai", false⟩] 3 (by decide)

/-! ### Claim C8 — more than 8 entries are truncated, never rejected -/

/-- Each loop iteration adds at most one record to the accumulator. -/
theorem loopValidate_length_le (elems : List Json) :
    ∀ acc out, loopValidate elems acc = .ok out →
      out.length ≤ acc.length + elems.length := by
  induction elems with
  | nil =>
    intro acc out h
    unfold loopValidate at h
    cases h
    simp
  | cons kw rest ih =>
    intro acc out h
    unfold loopValidate at h
    cases hv : pyValidateKeyword kw with
    | error e => rw [hv] at h; simp [bind, Except.bind] at h
    | ok v =>
      rw [hv] at h
      simp only [bind, Except.bind] at h
      cases v with
      | false =>
        rw [if_neg Bool.false_ne_true] at h
        have := ih acc out h
        simp only [List.length_cons]
        omega
      | true =>
        rw [if_pos rfl] at h
        cases hc : cleanKeyword kw with
        | error e => rw [hc] at h; simp at h
        | ok r =>
          rw [hc] at h
          simp only at h
          by_cases hd : acc.any (fun a => a.keyword == r.keyword)
          · rw [if_pos hd] at h
            have := ih acc out h
            simp only [List.length_cons]
            omega
          · rw [if_neg hd] at h
            have := ih (acc ++ [r]) out h
            simp only [List.length_cons, List.length_append, List.length_nil] at this ⊢
            omega

/-- The post-parse stage never returns more than 8 records. -/
theorem postProcess_length_le (data : Json) (out : List Record)
    (h : postProcess data = .ok out) : out.length ≤ 8 := by
  unfold postProcess at h
  cases hk : pyGetKeywords data with
  | error e => rw [hk] at h; simp [bind, Except.bind] at h
  | ok kws =>
    rw [hk] at h
    simp only [bind, Except.bind] at h
    cases hn : pyLen kws with
    | error e => rw [hn] at h; simp at h
    | ok n =>
      rw [hn] at h
      simp only at h
      by_cases h3 : n < 3
      · rw [if_pos h3] at h
        cases h
        simp
      · rw [if_neg h3] at h
        by_cases h8 : 8 < n
        · rw [if_pos h8] at h
          cases hs : pySlice8 kws with
          | error e => rw [hs] at h; simp [bind, Except.bind] at h
          | ok kws2 =>
            rw [hs] at h
            simp only [bind, Except.bind] at h
            cases hi : pyIterate kws2 with
            | error e => rw [hi] at h; simp at h
            | ok elems =>
              rw [hi] at h
              simp only at h
              have hlen := loopValidate_length_le elems [] out h
              simp at hlen
              cases kws with
              | arr xs =>
                cases hs; cases hi
                simp only [List.length_take] at hlen
                omega
              | str s =>
                cases hs; cases hi
                simp only [List.length_map, List.length_take] at hlen
                omega
              | obj m => simp [pySlice8] at hs
              | null => simp [pyLen] at hn
              | bool b => simp [pyLen] at hn
              | num m => simp [pyLen] at hn
        · rw [if_neg h8] at h
          simp only [bind, Except.bind, pure, Except.pure] at h
          cases hi : pyIterate kws with
          | error e => rw [hi] at h; simp at h
          | ok elems =>
            rw [hi] at h
            simp only at h
            have hlen := loopValidate_length_le elems [] out h
            simp only [List.length_nil, Nat.zero_add] at hlen
            cases kws with
            | arr xs => cases hi; cases hn; omega
            | str s =>
              cases hi; cases hn
              simp only [List.length_map] at hlen
              omega
            | obj m =>
              cases hi; cases hn
              simp only [List.length_map] at hlen
              omega
            | null => simp [pyLen] at hn
            | bool b => simp [pyLen] at hn
            | num m => simp [pyLen] at hn

set_option maxRecDepth 40000 in
/-- Claim C8: when the parsed array has more than 8 entries the parser keeps
exactly the first 8 for validation (no rejection); the output of
`_parse_keywords_response` never has more than 8 records; and the concrete
ten-entry response yields exactly its first 8 records. -/
theorem keywords_truncated_to_first_8 :
    (∀ s, (parseKeywordsResponse s).length ≤ 8) ∧
    (∀ s data l, parseAttempt s = .ok data →
      pyGetKeywords data = .ok (.arr l) → 8 < l.length →
      parseBody s = loopValidate (l.take 8) []) ∧
    parseKeywordsResponse tenEntryInput =
      [⟨"K0", "d", "r"⟩, ⟨"K1", "d", "r"⟩, ⟨"K2", "d", "r"⟩, ⟨"K3", "d", "r"⟩,
       ⟨"K4", "d", "r"⟩, ⟨"K5", "d", "r"⟩, ⟨"K6", "d", "r"⟩, ⟨"K7", "d", "r"⟩] := by
  refine ⟨?_, ?_, by decide⟩
  · intro s
    unfold parseKeywordsResponse
    cases hb : parseBody s with
    | error e => simp
    | ok out =>
      unfold parseBody at hb
      cases ha : parseAttempt s with
      | error e => rw [ha] at hb; simp [bind, Except.bind] at hb
      | ok data =>
        rw [ha] at hb
        simp only [bind, Except.bind] at hb
        exact postProcess_length_le data out hb
  · intro s data l h1 h2 h8
    unfold parseBody
    rw [h1]
    show postProcess data = _
    unfold postProcess
    rw [h2]
    simp only [bind, Except.bind, pyLen]
    rw [if_neg (by omega : ¬ l.length < 3), if_pos h8]
    rfl

set_option maxRecDepth 40000 in
/-- Witness for C8: the ten-entry response goes through truncation to its
first 8 entries before validation. -/
theorem keywords_truncated_to_first_8_witness :
    parseBody tenEntryInput = loopValidate (tenEntryList.take 8) [] :=
  keywords_truncated_to_first_8.2.1 tenEntryInput tenEntryData tenEntryList
    rfl rfl (by decide)

/-! ### Claim C3 — generic lemmas about the cleaning pipeline -/

/-- The head of a `dropWhile` result never satisfies the predicate. -/
theorem head?_dropWhile_false (p : Char → Bool) (l : List Char) {x : Char}
    (h : (l.dropWhile p).head? = some x) : p x = false := by
  have hg := List.head?_dropWhile_not p l
  rw [h] at hg
  exact hg

/-- A non-empty `dropWhile` result keeps the last element of the list. -/
theorem getLast?_dropWhile_ne_nil (p : Char → Bool) (l : List Char)
    (h : l.dropWhile p ≠ []) : (l.dropWhile p).getLast? = l.getLast? := by
  obtain ⟨u, hu⟩ := List.dropWhile_suffix (l := l) p
  conv_rhs => rw [← hu]
  rw [List.getLast?_append]
  cases hl : (l.dropWhile p).getLast? with
  | none => exact absurd (List.getLast?_eq_none_iff.mp hl) h
  | some x => simp

/-- If nothing at the head satisfies `p`, `dropWhile p` is the identity. -/
theorem dropWhile_eq_self_of_head (p : Char → Bool) (l : List Char)
    (h : ∀ x, l.head? = some x → p x = false) : l.dropWhile p = l := by
  cases l with
  | nil => rfl
  | cons a t =>
    rw [List.dropWhile_cons, h a rfl]
    simp

/-- The head of a both-ends strip never satisfies the predicate. -/
theorem head?_stripEnds_false (p : Char → Bool) (l : List Char) {x : Char}
    (h : (dropTrailing p (l.dropWhile p)).head? = some x) : p x = false := by
  unfold dropTrailing at h
  rw [List.head?_reverse] at h
  have hne : (l.dropWhile p).reverse.dropWhile p ≠ [] := by
    intro hnil
    rw [hnil] at h
    simp at h
  rw [getLast?_dropWhile_ne_nil p _ hne, List.getLast?_reverse] at h
  exact head?_dropWhile_false p l h

/-- The last element of `dropTrailing` never satisfies the predicate. -/
theorem getLast?_dropTrailing_false (p : Char → Bool) (l : List Char) {x : Char}
    (h : (dropTrailing p l).getLast? = some x) : p x = false := by
  unfold dropTrailing at h
  rw [List.getLast?_reverse] at h
  exact head?_dropWhile_false p l.reverse h

/-- Stripping both ends twice equals stripping once. -/
theorem stripEnds_idem (p : Char → Bool) (l : List Char) :
    dropTrailing p ((dropTrailing p (l.dropWhile p)).dropWhile p) =
      dropTrailing p (l.dropWhile p) := by
  have h1 : (dropTrailing p (l.dropWhile p)).dropWhile p =
      dropTrailing p (l.dropWhile p) :=
    dropWhile_eq_self_of_head p _ fun x hx => head?_stripEnds_false p l hx
  rw [h1]
  have h2 : (dropTrailing p (l.dropWhile p)).reverse.dropWhile p =
      (dropTrailing p (l.dropWhile p)).reverse := by
    apply dropWhile_eq_self_of_head
    intro x hx
    rw [List.head?_reverse] at hx
    exact getLast?_dropTrailing_false p _ hx
  show ((dropTrailing p (l.dropWhile p)).reverse.dropWhile p).reverse =
    dropTrailing p (l.dropWhile p)
  rw [h2, List.reverse_reverse]

/-- `pyStrip` is idempotent. -/
theorem pyStrip_idem (s : String) : pyStrip (pyStrip s) = pyStrip s := by
  show (⟨stripWSList (stripWSList s.data)⟩ : String) = ⟨stripWSList s.data⟩
  unfold stripWSList
  rw [stripEnds_idem]

/-- Elements survive `dropTrailing` only if they were in the list. -/
theorem mem_of_mem_dropTrailing (p : Char → Bool) (l : List Char) {c : Char}
    (h : c ∈ dropTrailing p l) : c ∈ l := by
  unfold dropTrailing at h
  rw [List.mem_reverse] at h
  exact List.mem_reverse.mp ((List.dropWhile_sublist p).mem h)

/-- Elements survive `collapseRuns` only if they were in the list. -/
theorem mem_of_mem_collapseRuns (k : Char) :
    ∀ l, ∀ c ∈ collapseRuns k l, c ∈ l := by
  intro l
  induction l with
  | nil => intro c hc; exact absurd hc (by simp [collapseRuns])
  | cons a t ih =>
    intro c hc
    cases t with
    | nil => simpa [collapseRuns] using hc
    | cons b t2 =>
      unfold collapseRuns at hc
      by_cases hk : (a == k && b == k) = true
      · rw [if_pos hk] at hc
        exact List.mem_cons_of_mem a (ih c hc)
      · rw [if_neg hk] at hc
        rcases List.mem_cons.mp hc with h | h
        · exact h ▸ List.mem_cons_self a _
        · exact List.mem_cons_of_mem a (ih c h)

/-- `collapseRuns` keeps the head of the list. -/
theorem collapseRuns_head? (k : Char) :
    ∀ l, (collapseRuns k l).head? = l.head? := by
  intro l
  induction l with
  | nil => rfl
  | cons a t ih =>
    cases t with
    | nil => rfl
    | cons b t2 =>
      unfold collapseRuns
      by_cases hk : (a == k && b == k) = true
      · rw [if_pos hk]
        have ha : a = k := by
          have := (Bool.and_eq_true _ _).mp hk
          exact eq_of_beq this.1
        have hb : b = k := by
          have := (Bool.and_eq_true _ _).mp hk
          exact eq_of_beq this.2
        rw [ih]
        simp [ha, hb]
      · rw [if_neg hk]
        rfl

/-- After `collapseRuns k`, no two adjacent elements are both `k`. -/
theorem chain'_collapseRuns_self (k : Char) :
    ∀ l, List.Chain' (fun a b => ¬(a = k ∧ b = k)) (collapseRuns k l) := by
  intro l
  induction l with
  | nil => exact List.chain'_nil
  | cons a t ih =>
    cases t with
    | nil => exact List.chain'_singleton a
    | cons b t2 =>
      unfold collapseRuns
      by_cases hk : (a == k && b == k) = true
      · rw [if_pos hk]; exact ih
      · rw [if_neg hk]
        rw [List.chain'_cons']
        refine ⟨?_, ih⟩
        intro y hy
        rw [collapseRuns_head? k (b :: t2)] at hy
        simp at hy
        subst hy
        intro ⟨ha, hb⟩
        subst ha; subst hb
        simp at hk

/-- `collapseRuns` never creates new adjacencies: every `Chain'` relation is
preserved. -/
theorem chain'_collapseRuns_mono {S : Char → Char → Prop} (k : Char) :
    ∀ l, List.Chain' S l → List.Chain' S (collapseRuns k l) := by
  intro l
  induction l with
  | nil => intro h; exact h
  | cons a t ih =>
    intro h
    cases t with
    | nil => exact h
    | cons b t2 =>
      have hr := (List.chain'_cons.mp h).1
      have ht := (List.chain'_cons.mp h).2
      unfold collapseRuns
      by_cases hk : (a == k && b == k) = true
      · rw [if_pos hk]; exact ih ht
      · rw [if_neg hk]
        rw [List.chain'_cons']
        refine ⟨?_, ih ht⟩
        intro y hy
        rw [collapseRuns_head? k (b :: t2)] at hy
        simp at hy
        subst hy
        exact hr

/-- Two `Chain'` facts on the same list combine pointwise. -/
theorem chain'_and {R S : Char → Char → Prop} :
    ∀ l, List.Chain' R l → List.Chain' S l →
      List.Chain' (fun a b => R a b ∧ S a b) l := by
  intro l
  induction l with
  | nil => intro _ _; exact List.chain'_nil
  | cons a t ih =>
    intro hR hS
    rw [List.chain'_cons'] at hR hS ⊢
    exact ⟨fun y hy => ⟨hR.1 y hy, hS.1 y hy⟩, ih hR.2 hS.2⟩

/-- `dropWhile` preserves every `Chain'` relation (it takes a suffix). -/
theorem chain'_dropWhile {S : Char → Char → Prop} (p : Char → Bool)
    (l : List Char) (h : List.Chain' S l) : List.Chain' S (l.dropWhile p) := by
  obtain ⟨u, hu⟩ := List.dropWhile_suffix (l := l) p
  rw [← hu] at h
  exact h.right_of_append

/-- `dropTrailing` preserves every `Chain'` relation. -/
theorem chain'_dropTrailing {S : Char → Char → Prop} (p : Char → Bool)
    (l : List Char) (h : List.Chain' S l) :
    List.Chain' S (dropTrailing p l) := by
  unfold dropTrailing
  rw [List.chain'_reverse]
  apply chain'_dropWhile
  exact List.chain'_reverse.mpr h

/-- The adjacent-pair relation behind `noDoubleSep`. -/
def sepR (a b : Char) : Prop :=
  ¬(a = '-' ∧ b = '-') ∧ ¬(a = '.' ∧ b = '.')

/-- The Boolean `noDoubleSep` follows from the `Chain'` form. -/
theorem noDoubleSep_of_chain' :
    ∀ l, List.Chain' sepR l → noDoubleSep l = true := by
  intro l
  induction l with
  | nil => intro _; rfl
  | cons a t ih =>
    intro h
    cases t with
    | nil => rfl
    | cons b t2 =>
      have hr := (List.chain'_cons.mp h).1
      have ht := (List.chain'_cons.mp h).2
      unfold noDoubleSep
      rw [ih ht]
      rcases hr with ⟨h1, h2⟩
      have hb1 : (a == '-' && b == '-') = false := by
        rcases Bool.eq_false_or_eq_true (a == '-' && b == '-') with htr | hf
        · rcases (Bool.and_eq_true _ _).mp htr with ⟨ha, hb⟩
          exact absurd ⟨eq_of_beq ha, eq_of_beq hb⟩ h1
        · exact hf
      have hb2 : (a == '.' && b == '.') = false := by
        rcases Bool.eq_false_or_eq_true (a == '.' && b == '.') with htr | hf
        · rcases (Bool.and_eq_true _ _).mp htr with ⟨ha, hb⟩
          exact absurd ⟨eq_of_beq ha, eq_of_beq hb⟩ h2
        · exact hf
      rw [hb1, hb2]
      rfl

/-- The Boolean `noEdgeSep` follows from facts about both ends. -/
theorem noEdgeSep_of (l : List Char)
    (h1 : ∀ x, l.head? = some x → sepChar x = false)
    (h2 : ∀ x, l.getLast? = some x → sepChar x = false) :
    noEdgeSep l = true := by
  unfold noEdgeSep
  cases hh : l.head? with
  | none =>
    cases hl : l.getLast? with
    | none => simp
    | some y => simp [h2 y hl]
  | some x =>
    cases hl : l.getLast? with
    | none => simp [h1 x hh]
    | some y => simp [h1 x hh, h2 y hl]

/-- The character pipeline of `_clean_keyword` always produces a normalised
keyword: only whitelisted characters, no doubled separators, no separator at
either end (possibly the empty string). -/
theorem isNormalizedKeyword_cleanCore (l : List Char) :
    isNormalizedKeyword ⟨cleanKeywordCore l⟩ = true := by
  unfold isNormalizedKeyword
  have hdata : (⟨cleanKeywordCore l⟩ : String).data = cleanKeywordCore l := rfl
  rw [hdata]
  unfold cleanKeywordCore
  set w := wlFilter (wsToDash (removeBrackets l)) with hw
  have hall : ((stripSepList (collapseRuns '.' (collapseRuns '-' w))).all
      allowedChar) = true := by
    rw [List.all_eq_true]
    intro c hc
    unfold stripSepList at hc
    have hc2 : c ∈ (collapseRuns '.' (collapseRuns '-' w)).dropWhile sepChar :=
      mem_of_mem_dropTrailing sepChar _ hc
    have hc3 : c ∈ collapseRuns '.' (collapseRuns '-' w) :=
      (List.dropWhile_sublist sepChar).mem hc2
    have hc4 : c ∈ collapseRuns '-' w := mem_of_mem_collapseRuns '.' _ c hc3
    have hc5 : c ∈ w := mem_of_mem_collapseRuns '-' _ c hc4
    rw [hw] at hc5
    exact (List.mem_filter.mp hc5).2
  have hchain : List.Chain' sepR (stripSepList (collapseRuns '.' (collapseRuns '-' w))) := by
    have c1 : List.Chain' (fun a b => ¬(a = '-' ∧ b = '-'))
        (collapseRuns '-' w) := chain'_collapseRuns_self '-' w
    have c2 : List.Chain' (fun a b => ¬(a = '-' ∧ b = '-'))
        (collapseRuns '.' (collapseRuns '-' w)) :=
      chain'_collapseRuns_mono '.' _ c1
    have c3 : List.Chain' (fun a b => ¬(a = '.' ∧ b = '.'))
        (collapseRuns '.' (collapseRuns '-' w)) :=
      chain'_collapseRuns_self '.' _
    have c4 : List.Chain' sepR (collapseRuns '.' (collapseRuns '-' w)) :=
      chain'_and _ c2 c3
    unfold stripSepList
    exact chain'_dropTrailing sepChar _ (chain'_dropWhile sepChar _ c4)
  have hedge : noEdgeSep (stripSepList (collapseRuns '.' (collapseRuns '-' w))) = true := by
    apply noEdgeSep_of
    · intro x hx
      exact head?_stripEnds_false sepChar _ hx
    · intro x hx
      unfold stripSepList at hx
      exact getLast?_dropTrailing_false sepChar _ hx
  rw [hall, noDoubleSep_of_chain' _ hchain, hedge]
  rfl

/-- Every value of the brand table is itself a normalised keyword. -/
theorem brandTable_normalized :
    ∀ p ∈ brandTable, isNormalizedKeyword p.2 = true := by decide

/-- `_enhance_brand_keywords` preserves normalisation. -/
theorem isNormalized_enhance (k : String) (dim : Json)
    (h : isNormalizedKeyword k = true) :
    isNormalizedKeyword (enhanceBrandKeywords k dim) = true := by
  unfold enhanceBrandKeywords
  by_cases hd : pyEqStr dim "品牌与身份" = true
  · rw [if_pos hd]
    cases hf : brandTable.find? (fun p => p.1 == k) with
    | none => exact h
    | some p => exact brandTable_normalized p (List.mem_of_find?_eq_some hf)
  · rw [if_neg hd]
    exact h

/-- Every record kept by the validation loop is either inherited from the
accumulator or is the cleaning of an entry that passed validation. -/
theorem loopValidate_mem (elems : List Json) :
    ∀ acc out r, loopValidate elems acc = .ok out → r ∈ out →
      r ∈ acc ∨ ∃ kw, pyValidateKeyword kw = .ok true ∧ cleanKeyword kw = .ok r := by
  induction elems with
  | nil =>
    intro acc out r h hr
    unfold loopValidate at h
    cases h
    exact .inl hr
  | cons kw rest ih =>
    intro acc out r h hr
    unfold loopValidate at h
    cases hv : pyValidateKeyword kw with
    | error e => rw [hv] at h; simp [bind, Except.bind] at h
    | ok v =>
      rw [hv] at h
      simp only [bind, Except.bind] at h
      cases v with
      | false =>
        rw [if_neg Bool.false_ne_true] at h
        exact ih acc out r h hr
      | true =>
        rw [if_pos rfl] at h
        cases hc : cleanKeyword kw with
        | error e => rw [hc] at h; simp at h
        | ok r2 =>
          rw [hc] at h
          simp only at h
          by_cases hd : acc.any (fun a => a.keyword == r2.keyword)
          · rw [if_pos hd] at h
            exact ih acc out r h hr
          · rw [if_neg hd] at h
            rcases ih _ out r h hr with hacc | hex
            · rcases List.mem_append.mp hacc with h1 | h1
              · exact .inl h1
              · have hr2 : r = r2 := by simpa using h1
                exact .inr ⟨kw, hv, hr2 ▸ hc⟩
            · exact .inr hex

/-- `postProcess` either rejects everything or hands a list of raw entries to
the validation loop starting from the empty accumulator. -/
theorem postProcess_ok_cases (data : Json) (out : List Record)
    (h : postProcess data = .ok out) :
    out = [] ∨ ∃ elems, loopValidate elems [] = .ok out := by
  unfold postProcess at h
  cases hk : pyGetKeywords data with
  | error e => rw [hk] at h; simp [bind, Except.bind] at h
  | ok kws =>
    rw [hk] at h
    simp only [bind, Except.bind] at h
    cases hn : pyLen kws with
    | error e => rw [hn] at h; simp at h
    | ok n =>
      rw [hn] at h
      simp only at h
      by_cases h3 : n < 3
      · rw [if_pos h3] at h
        cases h
        exact .inl rfl
      · rw [if_neg h3] at h
        by_cases h8 : 8 < n
        · rw [if_pos h8] at h
          cases hs : pySlice8 kws with
          | error e => rw [hs] at h; simp at h
          | ok kws2 =>
            rw [hs] at h
            simp only at h
            cases hi : pyIterate kws2 with
            | error e => rw [hi] at h; simp at h
            | ok elems =>
              rw [hi] at h
              exact .inr ⟨elems, h⟩
        · rw [if_neg h8] at h
          simp only [bind, Except.bind, pure, Except.pure] at h
          cases hi : pyIterate kws with
          | error e => rw [hi] at h; simp at h
          | ok elems =>
            rw [hi] at h
            exact .inr ⟨elems, h⟩

/-- A field check that returns `True` pins down the field's value: it is a
string whose stripped form is non-empty. -/
theorem checkField_ok_true (kw : Json) (f : String)
    (h : checkField kw f = .ok true) :
    ∃ orig, pyIndex kw f = .ok (.str orig) ∧ pyStrip orig ≠ "" := by
  unfold checkField at h
  cases hm : pyContains kw f with
  | error e => rw [hm] at h; simp [bind, Except.bind] at h
  | ok m =>
    rw [hm] at h
    simp only [bind, Except.bind] at h
    cases m with
    | false =>
      rw [if_neg Bool.false_ne_true] at h
      simp [pure, Except.pure] at h
    | true =>
      rw [if_pos rfl] at h
      cases hv : pyIndex kw f with
      | error e => rw [hv] at h; simp at h
      | ok v =>
        rw [hv] at h
        simp only at h
        cases hs : pyStripJson v with
        | error e => rw [hs] at h; simp at h
        | ok s =>
          rw [hs] at h
          have hse : (!s.isEmpty) = true := by
            simpa [pure, Except.pure] using h
          cases v with
          | str orig =>
            have hso : s = pyStrip orig := by
              have : Except.ok (ε := PyErr) (pyStrip orig) = .ok s := hs
              cases this
              rfl
            refine ⟨orig, rfl, ?_⟩
            rw [← hso]
            intro hemp
            rw [hemp] at hse
            simp [String.isEmpty] at hse
          | null => simp [pyStripJson] at hs
          | bool b => simp [pyStripJson] at hs
          | num m2 => simp [pyStripJson] at hs
          | arr xs => simp [pyStripJson] at hs
          | obj m2 => simp [pyStripJson] at hs

/-- A `True` verdict of `_validate_keyword` means all three field checks
returned `True`. -/
theorem pyValidate_ok_true (kw : Json)
    (h : pyValidateKeyword kw = .ok true) :
    checkField kw "keyword" = .ok true ∧ checkField kw "dimension" = .ok true ∧
    checkField kw "reason" = .ok true := by
  unfold pyValidateKeyword at h
  cases h1 : checkField kw "keyword" with
  | error e => rw [h1] at h; simp [bind, Except.bind] at h
  | ok b1 =>
    rw [h1] at h
    simp only [bind, Except.bind] at h
    cases b1 with
    | false =>
      rw [if_neg Bool.false_ne_true] at h
      simp [pure, Except.pure] at h
    | true =>
      rw [if_pos rfl] at h
      cases h2 : checkField kw "dimension" with
      | error e => rw [h2] at h; simp at h
      | ok b2 =>
        rw [h2] at h
        simp only at h
        cases b2 with
        | false =>
          rw [if_neg Bool.false_ne_true] at h
          simp [pure, Except.pure] at h
        | true =>
          rw [if_pos rfl] at h
          exact ⟨rfl, rfl, h⟩

/-- The shape of every record built by `_clean_keyword`. -/
theorem cleanKeyword_fields (kw : Json) (r : Record)
    (hc : cleanKeyword kw = .ok r) :
    ∃ ko dso rso,
      pyIndex kw "keyword" = .ok (.str ko) ∧
      pyIndex kw "dimension" = .ok (.str dso) ∧
      pyIndex kw "reason" = .ok (.str rso) ∧
      r = ⟨enhanceBrandKeywords ⟨cleanKeywordCore (pyStrip ko).data⟩ (.str dso),
           pyStrip dso, pyStrip rso⟩ := by
  unfold cleanKeyword at hc
  cases hkv : pyIndex kw "keyword" with
  | error e => rw [hkv] at hc; simp [bind, Except.bind] at hc
  | ok kv =>
    rw [hkv] at hc
    simp only [bind, Except.bind] at hc
    cases hks : pyStripJson kv with
    | error e => rw [hks] at hc; simp at hc
    | ok ks =>
      rw [hks] at hc
      simp only at hc
      cases hdv : pyIndex kw "dimension" with
      | error e => rw [hdv] at hc; simp at hc
      | ok dv =>
        rw [hdv] at hc
        simp only at hc
        cases hds : pyStripJson dv with
        | error e => rw [hds] at hc; simp at hc
        | ok ds =>
          rw [hds] at hc
          simp only at hc
          cases hrv : pyIndex kw "reason" with
          | error e => rw [hrv] at hc; simp at hc
          | ok rv =>
            rw [hrv] at hc
            simp only at hc
            cases hrs : pyStripJson rv with
            | error e => rw [hrs] at hc; simp at hc
            | ok rs =>
              rw [hrs] at hc
              cases kv with
              | str ko =>
                cases dv with
                | str dso =>
                  cases rv with
                  | str rso =>
                    refine ⟨ko, dso, rso, rfl, rfl, rfl, ?_⟩
                    have hks2 : ks = pyStrip ko := by
                      have : Except.ok (ε := PyErr) (pyStrip ko) = .ok ks := hks
                      cases this; rfl
                    have hds2 : ds = pyStrip dso := by
                      have : Except.ok (ε := PyErr) (pyStrip dso) = .ok ds := hds
                      cases this; rfl
                    have hrs2 : rs = pyStrip rso := by
                      have : Except.ok (ε := PyErr) (pyStrip rso) = .ok rs := hrs
                      cases this; rfl
                    have : Except.ok (ε := PyErr)
                        (Record.mk (enhanceBrandKeywords ⟨cleanKeywordCore ks.data⟩ (.str dso)) ds rs) = .ok r := hc
                    cases this
                    rw [hks2, hds2, hrs2]
                  | null => simp [pyStripJson] at hrs
                  | bool b => simp [pyStripJson] at hrs
                  | num m2 => simp [pyStripJson] at hrs
                  | arr xs => simp [pyStripJson] at hrs
                  | obj m2 => simp [pyStripJson] at hrs
                | null => simp [pyStripJson] at hds
                | bool b => simp [pyStripJson] at hds
                | num m2 => simp [pyStripJson] at hds
                | arr xs => simp [pyStripJson] at hds
                | obj m2 => simp [pyStripJson] at hds
              | null => simp [pyStripJson] at hks
              | bool b => simp [pyStripJson] at hks
              | num m2 => simp [pyStripJson] at hks
              | arr xs => simp [pyStripJson] at hks
              | obj m2 => simp [pyStripJson] at hks

/-- Claim C3, amended: every returned record has a dimension and a reason
that are non-empty after trimming, and a keyword that satisfies the
normalisation filter (whitelisted characters, no duplicate separators, no
edge separators) — but the keyword itself may be empty. -/
theorem cleaned_records_field_invariant (s : String) :
    ∀ r ∈ parseKeywordsResponse s,
      pyStrip r.dimension ≠ "" ∧ pyStrip r.reason ≠ "" ∧
      isNormalizedKeyword r.keyword = true := by
  intro r hr
  unfold parseKeywordsResponse at hr
  cases hb : parseBody s with
  | error e => rw [hb] at hr; simp at hr
  | ok out =>
    rw [hb] at hr
    unfold parseBody at hb
    cases ha : parseAttempt s with
    | error e => rw [ha] at hb; simp [bind, Except.bind] at hb
    | ok data =>
      rw [ha] at hb
      simp only [bind, Except.bind] at hb
      have hmem : ∃ kw, pyValidateKeyword kw = .ok true ∧ cleanKeyword kw = .ok r := by
        rcases postProcess_ok_cases data out hb with hnil | ⟨elems, hloop⟩
        · rw [hnil] at hr; simp at hr
        · rcases loopValidate_mem elems [] out r hloop hr with hacc | hex
          · simp at hacc
          · exact hex
      obtain ⟨kw, hv, hc⟩ := hmem
      obtain ⟨hk1, hk2, hk3⟩ := pyValidate_ok_true kw hv
      obtain ⟨ko1, hko1, _⟩ := checkField_ok_true kw "keyword" hk1
      obtain ⟨do1, hdo1, hdne⟩ := checkField_ok_true kw "dimension" hk2
      obtain ⟨ro1, hro1, hrne⟩ := checkField_ok_true kw "reason" hk3
      obtain ⟨ko, dso, rso, hko, hdo, hro, hrec⟩ := cleanKeyword_fields kw r hc
      have hdeq : dso = do1 := by
        rw [hdo] at hdo1
        have := hdo1
        cases this
        rfl
      have hreq : rso = ro1 := by
        rw [hro] at hro1
        have := hro1
        cases this
        rfl
      subst hrec
      refine ⟨?_, ?_, ?_⟩
      · show pyStrip (pyStrip dso) ≠ ""
        rw [pyStrip_idem, hdeq]
        exact hdne
      · show pyStrip (pyStrip rso) ≠ ""
        rw [pyStrip_idem, hreq]
        exact hrne
      · show isNormalizedKeyword
          (enhanceBrandKeywords ⟨cleanKeywordCore (pyStrip ko).data⟩ (.str dso)) = true
        exact isNormalized_enhance _ _ (isNormalizedKeyword_cleanCore _)

/-- Witness for the amended C3 at a concrete response and record. -/
theorem cleaned_records_field_invariant_witness :
    pyStrip (Record.mk "A" "d" "r").dimension ≠ "" ∧
    pyStrip (Record.mk "A" "d" "r").reason ≠ "" ∧
    isNormalizedKeyword (Record.mk "A" "d" "r").keyword = true :=
  cleaned_records_field_invariant emptyKeywordInput ⟨"A", "d", "r"⟩ (by decide)

/-! ### Claim C6 — the exclusion tracker -/

/-- Well-formedness of the tracker: dict keys are unique. -/
def trackerWF (t : Tracker) : Prop :=
  (t.keywordFrequency.map Prod.fst).Nodup

/-- First-seen position of a key in the frequency dict. -/
def freqPos (freq : List (String × Nat)) (k : String) : Nat :=
  (freq.map Prod.fst).indexOf k

/-- The order `current_exclusions` is sorted by: count descending, ties by
first-seen order. -/
def exclOrder (freq : List (String × Nat)) (a b : String) : Prop :=
  lookupCount freq b < lookupCount freq a ∨
  (lookupCount freq a = lookupCount freq b ∧ freqPos freq a < freqPos freq b)

/-- Membership through stable insertion. -/
theorem mem_insDescBy (cnt : String → Nat) (a : String) :
    ∀ l x, x ∈ insDescBy cnt a l ↔ x = a ∨ x ∈ l := by
  intro l
  induction l with
  | nil => intro x; simp [insDescBy]
  | cons b t ih =>
    intro x
    unfold insDescBy
    by_cases hc : cnt a ≤ cnt b
    · rw [if_pos hc]
      simp only [List.mem_cons, ih]
      tauto
    · rw [if_neg hc]
      exact List.mem_cons

/-- Length through stable insertion. -/
theorem length_insDescBy (cnt : String → Nat) (a : String) :
    ∀ l, (insDescBy cnt a l).length = l.length + 1 := by
  intro l
  induction l with
  | nil => rfl
  | cons b t ih =>
    unfold insDescBy
    by_cases hc : cnt a ≤ cnt b
    · rw [if_pos hc]
      simp [ih]
    · rw [if_neg hc]
      simp

/-- Membership through the whole stable sort. -/
theorem mem_sortDescBy_aux (cnt : String → Nat) :
    ∀ (l acc : List String) (x : String),
      (x ∈ l.foldl (fun acc a => insDescBy cnt a acc) acc) ↔
      x ∈ l ∨ x ∈ acc := by
  intro l
  induction l with
  | nil => intro acc x; simp
  | cons a t ih =>
    intro acc x
    rw [List.foldl_cons, ih]
    rw [mem_insDescBy]
    simp only [List.mem_cons]
    tauto

/-- Length through the whole stable sort. -/
theorem length_sortDescBy_aux (cnt : String → Nat) :
    ∀ (l acc : List String),
      (l.foldl (fun acc a => insDescBy cnt a acc) acc).length =
      l.length + acc.length := by
  intro l
  induction l with
  | nil => intro acc; simp
  | cons a t ih =>
    intro acc
    rw [List.foldl_cons, ih, length_insDescBy]
    simp only [List.length_cons]
    omega

/-- Stable insertion of a later-seen element preserves sortedness. -/
theorem pairwise_insDescBy (cnt pos : String → Nat) (a : String) :
    ∀ acc, List.Pairwise (fun x y => cnt y < cnt x ∨ (cnt x = cnt y ∧ pos x < pos y)) acc →
      (∀ b ∈ acc, pos b < pos a) →
      List.Pairwise (fun x y => cnt y < cnt x ∨ (cnt x = cnt y ∧ pos x < pos y))
        (insDescBy cnt a acc) := by
  intro acc
  induction acc with
  | nil => intro _ _; simp [insDescBy]
  | cons b t ih =>
    intro hp hpos
    rcases List.pairwise_cons.mp hp with ⟨hb, ht⟩
    unfold insDescBy
    by_cases hc : cnt a ≤ cnt b
    · rw [if_pos hc]
      rw [List.pairwise_cons]
      constructor
      · intro y hy
        rcases (mem_insDescBy cnt a t y).mp hy with rfl | hyt
        · rcases Nat.lt_or_ge (cnt y) (cnt b) with hlt | hge
          · exact .inl hlt
          · have : cnt b = cnt y := Nat.le_antisymm hge hc
            exact .inr ⟨this, hpos b (List.mem_cons_self b t)⟩
        · exact hb y hyt
      · exact ih ht fun x hx => hpos x (List.mem_cons_of_mem b hx)
    · rw [if_neg hc]
      rw [List.pairwise_cons]
      constructor
      · intro y hy
        rcases List.mem_cons.mp hy with rfl | hyt
        · exact .inl (Nat.lt_of_not_le hc)
        · have : cnt y ≤ cnt b := by
            rcases hb y hyt with h1 | ⟨h1, _⟩
            · exact Nat.le_of_lt h1
            · exact Nat.le_of_eq h1.symm
          exact .inl (Nat.lt_of_le_of_lt this (Nat.lt_of_not_le hc))
      · exact hp

/-- Folding stable insertions over a first-seen-ordered list sorts it. -/
theorem pairwise_sortDescBy_aux (cnt pos : String → Nat) :
    ∀ l acc,
      List.Pairwise (fun x y => cnt y < cnt x ∨ (cnt x = cnt y ∧ pos x < pos y)) acc →
      (∀ b ∈ acc, ∀ x ∈ l, pos b < pos x) →
      List.Pairwise (fun x y => pos x < pos y) l →
      List.Pairwise (fun x y => cnt y < cnt x ∨ (cnt x = cnt y ∧ pos x < pos y))
        (l.foldl (fun acc a => insDescBy cnt a acc) acc) := by
  intro l
  induction l with
  | nil => intro acc hp _ _; exact hp
  | cons a t ih =>
    intro acc hp hpos hl
    rcases List.pairwise_cons.mp hl with ⟨ha, ht⟩
    rw [List.foldl_cons]
    apply ih
    · exact pairwise_insDescBy cnt pos a acc hp
        fun b hb => hpos b hb a (List.mem_cons_self a t)
    · intro b hb x hx
      rcases (mem_insDescBy cnt a acc b).mp hb with rfl | hbacc
      · exact ha x hx
      · exact hpos b hbacc x (List.mem_cons_of_mem a hx)
    · exact ht

/-- A duplicate-free list is sorted by its own index order. -/
theorem pairwise_indexOf_self (keys : List String) (h : keys.Nodup) :
    List.Pairwise (fun a b => keys.indexOf a < keys.indexOf b) keys := by
  induction keys with
  | nil => exact List.Pairwise.nil
  | cons a t ih =>
    rcases List.nodup_cons.mp h with ⟨hna, hnd⟩
    rw [List.pairwise_cons]
    constructor
    · intro b hb
      have hne : b ≠ a := fun he => hna (he ▸ hb)
      rw [List.indexOf_cons_self, List.indexOf_cons_ne t hne.symm]
      exact Nat.succ_pos _
    · apply (ih hnd).imp_of_mem
      intro x y hx hy hxy
      have hnex : x ≠ a := fun he => hna (he ▸ hx)
      have hney : y ≠ a := fun he => hna (he ▸ hy)
      rw [List.indexOf_cons_ne t hnex.symm, List.indexOf_cons_ne t hney.symm]
      exact Nat.succ_lt_succ hxy

/-- With unique keys, lookup of a present pair gives its count. -/
theorem lookupCount_of_mem (freq : List (String × Nat))
    (hnd : (freq.map Prod.fst).Nodup) (k : String) (c : Nat)
    (h : (k, c) ∈ freq) : lookupCount freq k = c := by
  induction freq with
  | nil => exact absurd h (List.not_mem_nil _)
  | cons p t ih =>
    rcases List.nodup_cons.mp hnd with ⟨hna, hnd2⟩
    by_cases hpk : (p.1 == k) = true
    · have hf : List.find? (fun q => q.1 == k) (p :: t) = some p :=
        List.find?_cons_of_pos t hpk
      rcases List.mem_cons.mp h with he | hm
      · rw [← he] at hf ⊢
        simp [lookupCount, hf]
      · exact absurd (List.mem_map_of_mem Prod.fst hm)
          (by rw [eq_of_beq hpk] at hna; exact fun hc2 => hna hc2)
    · have hf : List.find? (fun q => q.1 == k) (p :: t) =
          List.find? (fun q => q.1 == k) t :=
        List.find?_cons_of_neg t hpk
      rcases List.mem_cons.mp h with he | hm
      · rw [← he] at hpk; simp at hpk
      · have := ih hnd2 hm
        simpa [lookupCount, hf] using this

/-- A key with positive count is present with exactly that count. -/
theorem lookup_mem_of_pos (freq : List (String × Nat)) (k : String)
    (h : 0 < lookupCount freq k) : (k, lookupCount freq k) ∈ freq := by
  cases hf : freq.find? (fun p => p.1 == k) with
  | none => simp [lookupCount, hf] at h
  | some p =>
    have hm := List.mem_of_find?_eq_some hf
    have hp := List.find?_some hf
    have hk : p.1 = k := eq_of_beq hp
    have hv : lookupCount freq k = p.2 := by simp [lookupCount, hf]
    rw [hv, ← hk]
    exact hm

/-- The keys of `bumpFreq`: unchanged for a present key, extended by the new
key otherwise. -/
theorem bumpFreq_keys (freq : List (String × Nat)) (k : String) :
    (bumpFreq freq k).map Prod.fst =
      if freq.any (fun p => p.1 == k) then freq.map Prod.fst
      else freq.map Prod.fst ++ [k] := by
  unfold bumpFreq
  by_cases ha : freq.any (fun p => p.1 == k)
  · rw [if_pos ha, if_pos ha, List.map_map]
    apply List.map_congr_left
    intro p _
    by_cases hp : p.1 = k
    · simp [hp]
    · simp [hp]
  · rw [if_neg ha, if_neg ha, List.map_append]
    simp

/-- `bumpFreq` preserves unique keys. -/
theorem bumpFreq_nodup (freq : List (String × Nat)) (k : String)
    (hnd : (freq.map Prod.fst).Nodup) :
    ((bumpFreq freq k).map Prod.fst).Nodup := by
  rw [bumpFreq_keys]
  by_cases ha : freq.any (fun p => p.1 == k)
  · rw [if_pos ha]; exact hnd
  · rw [if_neg ha]
    rw [List.nodup_append]
    refine ⟨hnd, List.nodup_singleton k, ?_⟩
    intro x hx
    simp only [List.mem_singleton]
    intro he
    subst he
    rcases List.mem_map.mp hx with ⟨p, hp, hfst⟩
    have : (p.1 == x) = true := by rw [hfst]; exact beq_self_eq_true x
    exact ha (List.any_eq_true.mpr ⟨p, hp, this⟩)

/-- The whole counting fold preserves unique keys. -/
theorem foldBump_nodup (ks : List Record) :
    ∀ freq, (freq.map Prod.fst).Nodup →
      ((ks.foldl (fun f r => bumpFreq f r.keyword) freq).map Prod.fst).Nodup := by
  induction ks with
  | nil => intro freq h; exact h
  | cons r t ih =>
    intro freq h
    rw [List.foldl_cons]
    exact ih _ (bumpFreq_nodup freq r.keyword h)

/-- Claim C6, amended: after every call to `update_exclusion_queue` on a
well-formed tracker the derived list has at most 50 entries, contains only
keywords with recorded count at least 10 (hence nothing below 10, i.e. "not
before the 10th occurrence"), is sorted by count descending with ties in
first-seen order, and a keyword whose recorded count has reached 10 appears
in the list provided at most 50 keywords have count ≥ 10 — with more than 50
only the top 50 appear, which refutes the unconditional reading. -/
theorem update_exclusion_queue_spec (t : Tracker) (ks : List Record)
    (hwf : trackerWF t) :
    (updateExclusionQueue t ks).excludedKeywords.length ≤ 50 ∧
    (∀ k ∈ (updateExclusionQueue t ks).excludedKeywords,
      10 ≤ lookupCount (updateExclusionQueue t ks).keywordFrequency k) ∧
    (∀ k, lookupCount (updateExclusionQueue t ks).keywordFrequency k < 10 →
      k ∉ (updateExclusionQueue t ks).excludedKeywords) ∧
    List.Pairwise (exclOrder (updateExclusionQueue t ks).keywordFrequency)
      (updateExclusionQueue t ks).excludedKeywords ∧
    (((updateExclusionQueue t ks).keywordFrequency.filter
        (fun p => 10 ≤ p.2)).length ≤ 50 →
      ∀ k, 10 ≤ lookupCount (updateExclusionQueue t ks).keywordFrequency k →
        k ∈ (updateExclusionQueue t ks).excludedKeywords) ∧
    trackerWF (updateExclusionQueue t ks) := by
  have hq : (updateExclusionQueue t ks).keywordFrequency =
      ks.foldl (fun f r => bumpFreq f r.keyword) t.keywordFrequency := rfl
  generalize hfreq : ks.foldl (fun f r => bumpFreq f r.keyword) t.keywordFrequency = freq at hq
  have hnd : (freq.map Prod.fst).Nodup := by
    rw [← hfreq]
    exact foldBump_nodup ks t.keywordFrequency hwf
  have he : (updateExclusionQueue t ks).excludedKeywords =
      (sortDescBy (lookupCount freq)
        ((freq.filter fun p => 10 ≤ p.2).map Prod.fst)).take 50 := by
    rw [← hfreq]; rfl
  have hmem : ∀ x, x ∈ sortDescBy (lookupCount freq)
      ((freq.filter fun p => 10 ≤ p.2).map Prod.fst) ↔
      x ∈ (freq.filter fun p => 10 ≤ p.2).map Prod.fst := by
    intro x
    unfold sortDescBy
    rw [mem_sortDescBy_aux]
    simp
  have hlen : (sortDescBy (lookupCount freq)
      ((freq.filter fun p => 10 ≤ p.2).map Prod.fst)).length =
      ((freq.filter fun p => 10 ≤ p.2).map Prod.fst).length := by
    unfold sortDescBy
    rw [length_sortDescBy_aux]
    simp
  have hmemhigh : ∀ k, k ∈ (freq.filter fun p => 10 ≤ p.2).map Prod.fst →
      10 ≤ lookupCount freq k := by
    intro k hk
    rcases List.mem_map.mp hk with ⟨p, hpmem, hpfst⟩
    rcases List.mem_filter.mp hpmem with ⟨hpfreq, hp10⟩
    have h10 : 10 ≤ p.2 := of_decide_eq_true hp10
    have hkc : lookupCount freq k = p.2 := by
      apply lookupCount_of_mem freq hnd
      rw [← hpfst]
      exact hpfreq
    omega
  have hmemtake : ∀ k ∈ (updateExclusionQueue t ks).excludedKeywords,
      10 ≤ lookupCount freq k := by
    intro k hk
    rw [he] at hk
    exact hmemhigh k ((hmem k).mp ((List.take_sublist 50 _).mem hk))
  refine ⟨?_, ?_, ?_, ?_, ?_, ?_⟩
  · rw [he]
    simp [List.length_take]
  · intro k hk
    rw [hq]
    exact hmemtake k hk
  · intro k hlt hk
    rw [hq] at hlt
    exact absurd (hmemtake k hk) (by omega)
  · rw [he, hq]
    apply List.Pairwise.sublist (List.take_sublist 50 _)
    unfold sortDescBy
    have hhigh : List.Pairwise (fun a b => freqPos freq a < freqPos freq b)
        ((freq.filter fun p => 10 ≤ p.2).map Prod.fst) := by
      apply List.Pairwise.sublist _ (pairwise_indexOf_self (freq.map Prod.fst) hnd)
      exact List.Sublist.map Prod.fst (List.filter_sublist freq)
    have := pairwise_sortDescBy_aux (lookupCount freq) (freqPos freq)
      ((freq.filter fun p => 10 ≤ p.2).map Prod.fst) [] List.Pairwise.nil
      (by intro b hb; simp at hb) hhigh
    exact this.imp fun h => h
  · intro hflen k h10
    rw [hq] at h10
    rw [he]
    have hp : (k, lookupCount freq k) ∈ freq :=
      lookup_mem_of_pos freq k (by omega)
    have hpf : (k, lookupCount freq k) ∈ freq.filter (fun p => 10 ≤ p.2) :=
      List.mem_filter.mpr ⟨hp, decide_eq_true h10⟩
    have hkh : k ∈ (freq.filter fun p => 10 ≤ p.2).map Prod.fst :=
      List.mem_map.mpr ⟨(k, lookupCount freq k), hpf, rfl⟩
    have hks : k ∈ sortDescBy (lookupCount freq)
        ((freq.filter fun p => 10 ≤ p.2).map Prod.fst) := (hmem k).mpr hkh
    rw [hq] at hflen
    have : (sortDescBy (lookupCount freq)
        ((freq.filter fun p => 10 ≤ p.2).map Prod.fst)).length ≤ 50 := by
      rw [hlen, List.length_map]
      exact hflen
    rw [List.take_of_length_le this]
    exact hks
  · show ((updateExclusionQueue t ks).keywordFrequency.map Prod.fst).Nodup
    rw [hq]
    exact hnd

/-- Ten records of the same keyword, reaching the threshold in one call. -/
def tenARecords : List Record := List.replicate 10 ⟨"a", "d", "r"⟩

/-- Witness for the amended C6: a keyword whose 10th occurrence has just
been recorded appears in the derived exclusion list. -/
theorem update_exclusion_queue_spec_witness :
    "a" ∈ (updateExclusionQueue initTracker tenARecords).excludedKeywords :=
  (update_exclusion_queue_spec initTracker tenARecords (by simp [trackerWF, initTracker])).2.2.2.2.1
    (by decide) "a" (by decide)

/-- Fifty distinct keywords, each already recorded 10 times. -/
def capFreq : List (String × Nat) :=
  (List.range 50).map fun i => (⟨[Char.ofNat (65 + i)]⟩, 10)

/-- A tracker state after those 500 recorded occurrences. -/
def capTracker : Tracker := ⟨capFreq, []⟩

/-- Ten occurrences of the fresh keyword `x` in one accepted result. -/
def tenXRecords : List Record := List.replicate 10 ⟨"x", "d", "r"⟩

set_option maxRecDepth 40000 in
/-- Counterexample to C6 as stated: with 50 earlier keywords already at
count 10, the keyword `x` does NOT appear in the exclusion list immediately
after its 10th recorded occurrence — the 50-entry cap and first-seen
tie-breaking push it out. -/
theorem tenth_occurrence_missing_from_exclusions :
    trackerWF capTracker ∧
    lookupCount (updateExclusionQueue capTracker tenXRecords).keywordFrequency "x" = 10 ∧
    (updateExclusionQueue capTracker tenXRecords).excludedKeywords.length = 50 ∧
    "x" ∉ (updateExclusionQueue capTracker tenXRecords).excludedKeywords := by
  refine ⟨?_, by decide, by decide, by decide⟩
  unfold trackerWF
  decide

/-! ### Claim C1 — the work-stealing scheduler -/

/-- The inductive invariant of the scheduler run: task bounds and attempt
accounting, uniqueness of every item across queue, in-flight set and
terminal outcomes, and the completed-count equation. -/
structure SchedInv (N P : Nat) (s : SchedState) : Prop where
  hqueue : ∀ p ∈ s.queue, p.1 < N ∧ p.2 + 1 ≤ P ∧ s.attempts p.1 = p.2
  hinflight : ∀ p ∈ s.inflight, p.1 < N ∧ p.2 + 1 ≤ P ∧ s.attempts p.1 = p.2 + 1
  hsucc : ∀ i ∈ s.succeeded, i < N
  hdrop : ∀ i ∈ s.dropped, i < N
  hcount : ∀ i, i < N → (s.queue.map Prod.fst).count i +
    (s.inflight.map Prod.fst).count i + s.succeeded.count i + s.dropped.count i = 1
  hatt : ∀ i, s.attempts i ≤ P
  hdropP : ∀ i ∈ s.dropped, s.attempts i = P
  hcompl : s.completed = s.succeeded.length + s.dropped.length

/-- A zero count for a mapped first component means no pair carries it. -/
theorem fst_ne_of_count_zero {l : List (Nat × Nat)} {i : Nat}
    (h : (l.map Prod.fst).count i = 0) : ∀ p ∈ l, p.1 ≠ i := by
  intro p hp he
  rw [List.count_eq_zero] at h
  exact h (List.mem_map.mpr ⟨p, hp, he⟩)

/-- A zero count means non-membership. -/
theorem not_mem_of_count_zero {l : List Nat} {i : Nat}
    (h : l.count i = 0) : i ∉ l := by
  rw [List.count_eq_zero] at h
  exact h

/-- The invariant holds right after `submit_all`. -/
theorem sched_inv_init (N P : Nat) (hP : 1 ≤ P) : SchedInv N P (initState N) := by
  refine ⟨?_, ?_, ?_, ?_, ?_, ?_, ?_, rfl⟩
  · intro p hp
    rcases List.mem_map.mp hp with ⟨i, hi, he⟩
    subst he
    exact ⟨List.mem_range.mp hi, hP, rfl⟩
  · intro p hp; exact absurd hp (List.not_mem_nil p)
  · intro i hi; exact absurd hi (List.not_mem_nil i)
  · intro i hi; exact absurd hi (List.not_mem_nil i)
  · intro i hi
    show (((List.range N).map (fun i => (i, 0))).map Prod.fst).count i + 0 + 0 + 0 = 1
    rw [List.map_map]
    have : (Prod.fst ∘ fun i : Nat => (i, 0)) = id := rfl
    rw [this, List.map_id]
    have := List.nodup_range N
    rw [List.count_eq_one_of_mem this (List.mem_range.mpr hi)]
  · intro i; exact Nat.zero_le P
  · intro i hi; exact absurd hi (List.not_mem_nil i)

/-- Every scheduler transition preserves the invariant. -/
theorem sched_inv_step (N P : Nat) (hP : 1 ≤ P) (s s2 : SchedState)
    (hinv : SchedInv N P s) (hstep : Step P s s2) : SchedInv N P s2 := by
  obtain ⟨hqueue, hinflight, hsucc, hdrop, hcount, hatt, hdropP, hcompl⟩ := hinv
  cases hstep with
  | dequeue i r rest hq =>
    obtain ⟨hiN, hrP, hai⟩ := hqueue (i, r) (by rw [hq]; exact List.mem_cons_self _ _)
    have hcnt := hcount i hiN
    rw [hq] at hcnt
    simp only [List.map_cons, List.count_cons, beq_self_eq_true, if_true] at hcnt
    have hrest0 : ((rest.map Prod.fst).count i) = 0 := by omega
    have hinf0 : ((s.inflight.map Prod.fst).count i) = 0 := by omega
    have hsucc0 : (s.succeeded.count i) = 0 := by omega
    have hdrop0 : (s.dropped.count i) = 0 := by omega
    refine ⟨?_, ?_, hsucc, hdrop, ?_, ?_, ?_, hcompl⟩
    · intro p hp
      obtain ⟨h1, h2, h3⟩ := hqueue p (by rw [hq]; exact List.mem_cons_of_mem _ hp)
      refine ⟨h1, h2, ?_⟩
      show bumpAttempts s.attempts i p.1 = p.2
      unfold bumpAttempts
      rw [if_neg (fst_ne_of_count_zero hrest0 p hp)]
      exact h3
    · intro p hp
      rcases List.mem_append.mp hp with hold | hnew
      · obtain ⟨h1, h2, h3⟩ := hinflight p hold
        refine ⟨h1, h2, ?_⟩
        show bumpAttempts s.attempts i p.1 = p.2 + 1
        unfold bumpAttempts
        rw [if_neg (fst_ne_of_count_zero hinf0 p hold)]
        exact h3
      · have hpe : p = (i, r) := by simpa using hnew
        subst hpe
        refine ⟨hiN, hrP, ?_⟩
        show bumpAttempts s.attempts i i = r + 1
        unfold bumpAttempts
        rw [if_pos rfl, hai]
    · intro j hj
      have hcntj := hcount j hj
      rw [hq] at hcntj
      simp only [List.map_cons, List.count_cons, List.map_append, List.count_append,
        List.map_cons, List.count_cons, List.map_nil, List.count_nil] at hcntj ⊢
      omega
    · intro j
      show bumpAttempts s.attempts i j ≤ P
      unfold bumpAttempts
      by_cases hj : j = i
      · rw [if_pos hj]; subst hj; rw [hai]; exact hrP
      · rw [if_neg hj]; exact hatt j
    · intro j hj
      show bumpAttempts s.attempts i j = P
      unfold bumpAttempts
      have : j ≠ i := fun he => not_mem_of_count_zero hdrop0 (he ▸ hj)
      rw [if_neg this]
      exact hdropP j hj
  | succeed i r l1 l2 hf =>
    obtain ⟨hiN, hrP, hai⟩ := hinflight (i, r)
      (by rw [hf]; exact List.mem_append.mpr (.inr (List.mem_cons_self _ _)))
    refine ⟨hqueue, ?_, ?_, hdrop, ?_, hatt, hdropP, ?_⟩
    · intro p hp
      apply hinflight
      rw [hf]
      rcases List.mem_append.mp hp with h1 | h2
      · exact List.mem_append.mpr (.inl h1)
      · exact List.mem_append.mpr (.inr (List.mem_cons_of_mem _ h2))
    · intro j hj
      rcases List.mem_append.mp hj with h1 | h2
      · exact hsucc j h1
      · have : j = i := by simpa using h2
        subst this; exact hiN
    · intro j hj
      have hcntj := hcount j hj
      rw [hf] at hcntj
      simp only [List.map_append, List.count_append, List.map_cons, List.count_cons,
        List.map_nil, List.count_nil] at hcntj ⊢
      omega
    · show s.completed + 1 = (s.succeeded ++ [i]).length + s.dropped.length
      rw [List.length_append]
      simp only [List.length_cons, List.length_nil]
      omega
  | failRetry i r l1 l2 hf hr =>
    obtain ⟨hiN, hrP, hai⟩ := hinflight (i, r)
      (by rw [hf]; exact List.mem_append.mpr (.inr (List.mem_cons_self _ _)))
    refine ⟨?_, ?_, hsucc, hdrop, ?_, hatt, hdropP, hcompl⟩
    · intro p hp
      rcases List.mem_append.mp hp with hold | hnew
      · exact hqueue p hold
      · have hpe : p = (i, r + 1) := by simpa using hnew
        subst hpe
        exact ⟨hiN, by omega, hai⟩
    · intro p hp
      apply hinflight
      rw [hf]
      rcases List.mem_append.mp hp with h1 | h2
      · exact List.mem_append.mpr (.inl h1)
      · exact List.mem_append.mpr (.inr (List.mem_cons_of_mem _ h2))
    · intro j hj
      have hcntj := hcount j hj
      rw [hf] at hcntj
      simp only [List.map_append, List.count_append, List.map_cons, List.count_cons,
        List.map_nil, List.count_nil] at hcntj ⊢
      omega
  | failDrop i r l1 l2 hf hr =>
    obtain ⟨hiN, hrP, hai⟩ := hinflight (i, r)
      (by rw [hf]; exact List.mem_append.mpr (.inr (List.mem_cons_self _ _)))
    have hrp : r + 1 = P := by omega
    refine ⟨hqueue, ?_, hsucc, ?_, ?_, hatt, ?_, ?_⟩
    · intro p hp
      apply hinflight
      rw [hf]
      rcases List.mem_append.mp hp with h1 | h2
      · exact List.mem_append.mpr (.inl h1)
      · exact List.mem_append.mpr (.inr (List.mem_cons_of_mem _ h2))
    · intro j hj
      rcases List.mem_append.mp hj with h1 | h2
      · exact hdrop j h1
      · have : j = i := by simpa using h2
        subst this; exact hiN
    · intro j hj
      have hcntj := hcount j hj
      rw [hf] at hcntj
      simp only [List.map_append, List.count_append, List.map_cons, List.count_cons,
        List.map_nil, List.count_nil] at hcntj ⊢
      omega
    · intro j hj
      rcases List.mem_append.mp hj with h1 | h2
      · exact hdropP j h1
      · have : j = i := by simpa using h2
        subst this
        rw [hai]; exact hrp
    · show s.completed + 1 = s.succeeded.length + (s.dropped ++ [i]).length
      rw [List.length_append]
      simp only [List.length_cons, List.length_nil]
      omega

/-- The invariant holds in every reachable state. -/
theorem sched_inv_reaches (N P : Nat) (hP : 1 ≤ P) (s : SchedState)
    (h : Reaches P (initState N) s) : SchedInv N P s := by
  induction h with
  | refl => exact sched_inv_init N P hP
  | tail _ hstep ih => exact sched_inv_step N P hP _ _ ih hstep

/-- Counting elements below a bound sums to the length. -/
theorem length_eq_sum_count (N : Nat) (l : List Nat) (h : ∀ x ∈ l, x < N) :
    ∑ i in Finset.range N, l.count i = l.length := by
  induction l with
  | nil => simp
  | cons a t ih =>
    have ha : a < N := h a (List.mem_cons_self a t)
    have ht : ∀ x ∈ t, x < N := fun x hx => h x (List.mem_cons_of_mem a hx)
    simp only [List.count_cons]
    rw [Finset.sum_add_distrib, ih ht]
    have hsum : ∑ i in Finset.range N, (if (a == i) = true then 1 else 0) = 1 := by
      have heach : ∀ i, (if (a == i) = true then (1 : Nat) else 0) =
          if a = i then 1 else 0 := by
        intro i
        by_cases hai : a = i <;> simp [hai]
      rw [Finset.sum_congr rfl fun i _ => heach i]
      rw [Finset.sum_ite_eq (Finset.range N) a fun _ => (1 : Nat)]
      simp [Finset.mem_range, ha]
    rw [hsum]
    simp

/-- Claim C1: in any run of the work-stealing scheduler with `N` items and
`P ≥ 1` enabled platforms (any interleaving of the worker transitions, whose
failure rule re-enqueues with `retry_count + 1` exactly while
`retry_count < P - 1` and drops otherwise), once the queue is drained and no
task is in flight, every item has reached exactly one terminal outcome
(appended to the shared results list once, or dropped once), the shared
completed count equals `N`, every item was attempted at most `P` times, and
dropped items were attempted exactly `P` times. -/
theorem work_stealing_outcomes (N P : Nat) (hP : 1 ≤ P) (s : SchedState)
    (hreach : Reaches P (initState N) s)
    (hq : s.queue = []) (hf : s.inflight = []) :
    s.completed = N ∧
    s.succeeded.length + s.dropped.length = N ∧
    (∀ i, i < N → s.succeeded.count i + s.dropped.count i = 1) ∧
    (∀ i, s.attempts i ≤ P) ∧
    (∀ i ∈ s.dropped, s.attempts i = P) := by
  have inv := sched_inv_reaches N P hP s hreach
  have hcnt : ∀ i, i < N → s.succeeded.count i + s.dropped.count i = 1 := by
    intro i hi
    have := inv.hcount i hi
    rw [hq, hf] at this
    simpa using this
  have hlen : s.succeeded.length + s.dropped.length = N := by
    have h1 : ∑ i in Finset.range N, s.succeeded.count i = s.succeeded.length :=
      length_eq_sum_count N _ inv.hsucc
    have h2 : ∑ i in Finset.range N, s.dropped.count i = s.dropped.length :=
      length_eq_sum_count N _ inv.hdrop
    have h3 : ∑ i in Finset.range N,
        (s.succeeded.count i + s.dropped.count i) = N := by
      rw [Finset.sum_congr rfl fun i hi => hcnt i (Finset.mem_range.mp hi)]
      simp
    rw [Finset.sum_add_distrib, h1, h2] at h3
    exact h3
  exact ⟨by rw [inv.hcompl, hlen], hlen, hcnt, inv.hatt, inv.hdropP⟩

/-- The terminal state of a one-item, one-platform run whose single attempt
fails: the item is dequeued, the attempt fails, the retry budget
(`retry_count < 0`) is exhausted, and the item is dropped. -/
def demoFinal : SchedState :=
  ⟨[], [], [], [0], fun j => if j = 0 then 1 else 0, 1⟩

/-- Witness for C1 on a concrete two-step run with `N = 1`, `P = 1`. -/
theorem work_stealing_outcomes_witness :
    demoFinal.completed = 1 ∧
    demoFinal.succeeded.length + demoFinal.dropped.length = 1 ∧
    (∀ i, i < 1 → demoFinal.succeeded.count i + demoFinal.dropped.count i = 1) ∧
    (∀ i, demoFinal.attempts i ≤ 1) ∧
    (∀ i ∈ demoFinal.dropped, demoFinal.attempts i = 1) :=
  work_stealing_outcomes 1 1 (le_refl 1) demoFinal
    (Relation.ReflTransGen.head (Step.dequeue (initState 1) 0 0 [] rfl)
      (Relation.ReflTransGen.head (Step.failDrop _ 0 0 [] [] rfl (by omega))
        Relation.ReflTransGen.refl))
    rfl rfl

end ModelKeyword
